import Mathlib

/-!
# Safety evaluator of `task3.go` (Banker's algorithm)

A shallow embedding of `isSafe` from `src/task3.go`.

* Go's `int` is taken 64 bits wide and embedded as `Int`; the results of `-` (line 14)
  and `+=` (line 41) wrap around in two's complement (`Go.wrap64`).
* Slices are lists. Every slice index the Go code evaluates is a checked access
  (`idx`), an out-of-range index is the run-time panic `Fault.indexOutOfRange`;
  `make` with a negative length is the panic `Fault.negativeLen`.
* The unbounded `for { ... }` loop is run with a pass budget; `Fault.outOfFuel`
  is the (provably unreachable) exhaustion of that budget.
* A returned slice is `Option (List Nat)`: `none` is Go's `nil`.
-/

namespace Go

/-- The value a 64-bit `int` holds when the exact result of an operation is `x`
(two's complement wrap-around). -/
def wrap64 (x : Int) : Int :=
  (x + 9223372036854775808) % 18446744073709551616 - 9223372036854775808

/-- The integer `x` is representable in a 64-bit `int`. -/
def InInt64 (x : Int) : Prop :=
  -9223372036854775808 ≤ x ∧ x ≤ 9223372036854775807

instance (x : Int) : Decidable (InInt64 x) := by
  unfold InInt64; infer_instance

/-- The largest 64-bit `int`, `math.MaxInt64`. -/
def maxInt64 : Int := 9223372036854775807

/-- The smallest 64-bit `int`, `math.MinInt64`. -/
def minInt64 : Int := -9223372036854775808

end Go

namespace Task3

/-! ## Embedding of the source -/

/-- Ways in which an evaluation can fail to return. -/
inductive Fault where
  | negativeLen
  | indexOutOfRange
  | outOfFuel
  deriving DecidableEq, Repr

deriving instance DecidableEq for Except

/-- Checked slice access `xs[i]`. -/
def idx {α : Type} (xs : List α) (i : Nat) : Except Fault α :=
  match xs[i]? with
  | some a => .ok a
  | none => .error .indexOutOfRange

/-- Checked matrix access `m[i][j]`. -/
def idx2 (m : List (List Int)) (i j : Nat) : Except Fault Int :=
  match idx m i with
  | .ok row => idx row j
  | .error e => .error e

/-- Row `i` of `need`: the loop `for j := 0; j < resources; j++` of lines 13-15,
run over the column indices `js`. -/
def needRow (max allocation : List (List Int)) (i : Nat) :
    List Nat → Except Fault (List Int)
  | [] => .ok []
  | j :: js =>
    match idx2 max i j with
    | .error e => .error e
    | .ok m =>
      match idx2 allocation i j with
      | .error e => .error e
      | .ok a =>
        match needRow max allocation i js with
        | .error e => .error e
        | .ok rest => .ok (Go.wrap64 (m - a) :: rest)

/-- The matrix `need` (lines 10-16), the outer loop run over the row indices. -/
def mkNeed (max allocation : List (List Int)) (resources : Nat) :
    List Nat → Except Fault (List (List Int))
  | [] => .ok []
  | i :: is =>
    match needRow max allocation i (List.range resources) with
    | .error e => .error e
    | .ok row =>
      match mkNeed max allocation resources is with
      | .error e => .error e
      | .ok rest => .ok (row :: rest)

/-- Lines 19-20: `work := make([]int, resources); copy(work, available)`.
`copy` copies `min(len(work), len(available))` entries, the rest stay zero. -/
def copyInto (resources : Nat) (available : List Int) : List Int :=
  available.take resources ++ List.replicate (resources - available.length) 0

/-- The mutable locals of `isSafe` during the search. -/
structure State where
  work : List Int
  finish : List Bool
  order : List Nat
  found : Bool
  deriving DecidableEq, Repr

/-- Lines 32-38: the `canAllocate` loop over the resource indices `js`,
leaving at the first `need[i][j] > work[j]`. -/
def canAllocate (need : List (List Int)) (work : List Int) (i : Nat) :
    List Nat → Except Fault Bool
  | [] => .ok true
  | j :: js =>
    match idx2 need i j with
    | .error e => .error e
    | .ok n =>
      match idx work j with
      | .error e => .error e
      | .ok w => if n > w then .ok false else canAllocate need work i js

/-- Lines 40-42: `work[j] += allocation[i][j]` over the resource indices `js`. -/
def release (allocation : List (List Int)) (i : Nat) :
    List Nat → List Int → Except Fault (List Int)
  | [], work => .ok work
  | j :: js, work =>
    match idx work j with
    | .error e => .error e
    | .ok w =>
      match idx2 allocation i j with
      | .error e => .error e
      | .ok a => release allocation i js (work.set j (Go.wrap64 (w + a)))

/-- Lines 31-47: the body of the scan loop for one process index `i`. -/
def visit (need allocation : List (List Int)) (resources : Nat) (i : Nat) (st : State) :
    Except Fault State :=
  match idx st.finish i with
  | .error e => .error e
  | .ok true => .ok st
  | .ok false =>
    match canAllocate need st.work i (List.range resources) with
    | .error e => .error e
    | .ok false => .ok st
    | .ok true =>
      match release allocation i (List.range resources) st.work with
      | .error e => .error e
      | .ok work =>
        .ok { work := work, finish := st.finish.set i true,
              order := st.order ++ [i], found := true }

/-- Lines 30-48: one pass `for i := 0; i < processes; i++`, over the indices `is`. -/
def scan (need allocation : List (List Int)) (resources : Nat) :
    List Nat → State → Except Fault State
  | [], st => .ok st
  | i :: is, st =>
    match visit need allocation resources i st with
    | .error e => .error e
    | .ok st1 => scan need allocation resources is st1

/-- Lines 28-52: the outer `for { found := false; ...; if !found { break } }`,
with a budget of passes. -/
def loop (need allocation : List (List Int)) (processes resources : Nat) :
    Nat → State → Except Fault State
  | 0, _ => .error .outOfFuel
  | fuel + 1, st =>
    match scan need allocation resources (List.range processes) { st with found := false } with
    | .error e => .error e
    | .ok st1 => if st1.found then loop need allocation processes resources fuel st1 else .ok st1

/-- Lines 23-26: the locals before the search starts. -/
def initState (processes resources : Nat) (available : List Int) : State :=
  { work := copyInto resources available, finish := List.replicate processes false,
    order := [], found := false }

/-- Lines 10-52 with an explicit budget of passes: the state in which the search stops. -/
def searchFuel (fuel : Nat) (processes resources : Int) (available : List Int)
    (max allocation : List (List Int)) : Except Fault State :=
  if processes < 0 ∨ resources < 0 then .error .negativeLen
  else
    match mkNeed max allocation resources.toNat (List.range processes.toNat) with
    | .error e => .error e
    | .ok need =>
      loop need allocation processes.toNat resources.toNat fuel
        (initState processes.toNat resources.toNat available)

/-- Lines 10-52: the search, with `processes + 1` passes allowed
(`searchFuel_irrelevant`: a larger budget changes nothing). -/
def search (processes resources : Int) (available : List Int)
    (max allocation : List (List Int)) : Except Fault State :=
  searchFuel (processes.toNat + 1) processes resources available max allocation

/-- Lines 55-59: `for i := 0; i < processes; i++ { if !finish[i] { return false, nil } }`,
over the indices `is`; `true` when the loop falls through. -/
def allFinished (finish : List Bool) : List Nat → Except Fault Bool
  | [] => .ok true
  | i :: is =>
    match idx finish i with
    | .error e => .error e
    | .ok false => .ok false
    | .ok true => allFinished finish is

/-- The function `isSafe` of `task3.go`: verdict and order (`none` is `nil`). -/
def isSafe (processes resources : Int) (available : List Int)
    (max allocation : List (List Int)) : Except Fault (Bool × Option (List Nat)) :=
  match search processes resources available max allocation with
  | .error e => .error e
  | .ok st =>
    match allFinished st.finish (List.range processes.toNat) with
    | .error e => .error e
    | .ok true => .ok (true, some st.order)
    | .ok false => .ok (false, none)

/-! ### The steps of the search

The same loops, recording the locals after every iteration of the scan loop. -/

/-- The last state of a trace that starts after `st`. -/
def lastState (st : State) : List State → State
  | [] => st
  | s :: tr => lastState s tr

/-- The locals after each iteration of one pass over the indices `is`. -/
def scanTrace (need allocation : List (List Int)) (resources : Nat) :
    List Nat → State → Except Fault (List State)
  | [], _ => .ok []
  | i :: is, st =>
    match visit need allocation resources i st with
    | .error e => .error e
    | .ok st1 =>
      match scanTrace need allocation resources is st1 with
      | .error e => .error e
      | .ok tr => .ok (st1 :: tr)

/-- The locals at the start of each pass (after `found := false`) and after each iteration
of its scan loop, for all passes of the outer loop. -/
def loopTrace (need allocation : List (List Int)) (processes resources : Nat) :
    Nat → State → Except Fault (List State)
  | 0, _ => .error .outOfFuel
  | fuel + 1, st =>
    match scanTrace need allocation resources (List.range processes)
        { st with found := false } with
    | .error e => .error e
    | .ok tr =>
      if (lastState { st with found := false } tr).found then
        match loopTrace need allocation processes resources fuel
            (lastState { st with found := false } tr) with
        | .error e => .error e
        | .ok tr2 => .ok ({ st with found := false } :: (tr ++ tr2))
      else .ok ({ st with found := false } :: tr)

/-- Every state the search of `isSafe` goes through, from the initial locals on. -/
def searchTrace (processes resources : Int) (available : List Int)
    (max allocation : List (List Int)) : Except Fault (List State) :=
  if processes < 0 ∨ resources < 0 then .error .negativeLen
  else
    match mkNeed max allocation resources.toNat (List.range processes.toNat) with
    | .error e => .error e
    | .ok need =>
      loopTrace need allocation processes.toNat resources.toNat (processes.toNat + 1)
        (initState processes.toNat resources.toNat available)

/-- Go's `len` of a returned slice. -/
def sliceLen (s : Option (List Nat)) : Nat :=
  match s with
  | none => 0
  | some l => l.length

/-- The `max` matrix of `main` (lines 78-84). -/
def refMax : List (List Int) := [[7, 5, 3], [3, 2, 2], [9, 0, 2], [2, 2, 2], [4, 3, 3]]

/-- The `allocation` matrix of `main` (lines 87-93). -/
def refAllocation : List (List Int) := [[0, 1, 0], [2, 0, 0], [3, 0, 2], [2, 1, 1], [0, 0, 2]]

/-! ## Shapes, and need and work as the code computes them -/

/-- Total reading of the matrix entry `m[i][j]` (`0` outside the matrix). -/
def cell (m : List (List Int)) (i j : Nat) : Int :=
  ((m[i]?.getD [])[j]?).getD 0

/-- Every `m[i][j]` with `i < P` and `j < R` is inside the matrix. -/
def InBounds (P R : Nat) (m : List (List Int)) : Prop :=
  ∀ i < P, ∀ j < R, ∃ row, m[i]? = some row ∧ j < row.length

/-- The snapshot has `P` rows of `R` entries in `max` and `allocation`, and `available`
has length `R`. -/
def Shaped (P R : Nat) (available : List Int) (max allocation : List (List Int)) : Prop :=
  available.length = R ∧ max.length = P ∧ allocation.length = P ∧
    (∀ row ∈ max, row.length = R) ∧ (∀ row ∈ allocation, row.length = R)

instance (P R : Nat) (available : List Int) (max allocation : List (List Int)) :
    Decidable (Shaped P R available max allocation) := by
  unfold Shaped; infer_instance

/-- Component-wise `need[p] <= work`, with `need[p][j]` the 64-bit value of
`max[p][j] - allocation[p][j]` that line 14 stores. -/
def fitsRow (R : Nat) (max allocation : List (List Int)) (work : List Int) (p : Nat) : Bool :=
  (List.range R).all (fun j =>
    decide (Go.wrap64 (cell max p j - cell allocation p j) ≤ (work[j]?).getD 0))

/-- The vector `work` after `allocation[p]` has been added to it by line 41 (64-bit `+=`). -/
def grant (R : Nat) (allocation : List (List Int)) (work : List Int) (p : Nat) : List Int :=
  (List.range R).map (fun j => Go.wrap64 ((work[j]?).getD 0 + cell allocation p j))

/-- The vector `work` after the processes of `order` have released their allocation. -/
def workAfter (R : Nat) (allocation : List (List Int)) (work : List Int) (order : List Nat) :
    List Int :=
  order.foldl (grant R allocation) work

/-- Replaying `order` from `work` with the 64-bit arithmetic of the code succeeds at every
step: the need of each process is `<= work` component-wise when it is processed, after which
its allocation is added. -/
def replayOk (R : Nat) (max allocation : List (List Int)) : List Int → List Nat → Bool
  | _, [] => true
  | work, p :: ps =>
    fitsRow R max allocation work p && replayOk R max allocation (grant R allocation work p) ps

/-! ## The specification's exact arithmetic

The specification computes with mathematical integers. These are its notions, next to
the conditions under which the 64-bit arithmetic of the code agrees with them. -/

/-- Component-wise `need[p] <= work` with the exact `need = max - allocation`. -/
def specFits (R : Nat) (max allocation : List (List Int)) (work : List Int) (p : Nat) : Bool :=
  (List.range R).all (fun j => decide (cell max p j - cell allocation p j ≤ (work[j]?).getD 0))

/-- The vector `work` after `allocation[p]` has been added to it, exactly. -/
def specGrant (R : Nat) (allocation : List (List Int)) (work : List Int) (p : Nat) : List Int :=
  (List.range R).map (fun j => (work[j]?).getD 0 + cell allocation p j)

/-- Replaying `order` from `work` in exact arithmetic succeeds at every step: the need of
each process is `<= work` component-wise when it is processed, after which its allocation
is added to `work`. -/
def specReplayOk (R : Nat) (max allocation : List (List Int)) : List Int → List Nat → Bool
  | _, [] => true
  | work, p :: ps =>
    specFits R max allocation work p &&
      specReplayOk R max allocation (specGrant R allocation work p) ps

/-- The exact sum of `allocation[p][j]` over the processes `p` of `o`. -/
def allocSum (allocation : List (List Int)) (o : List Nat) (j : Nat) : Int :=
  (o.map (fun p => cell allocation p j)).sum

/-- No entry of `need = max - allocation` leaves the 64-bit range. -/
def NeedInRange (P R : Nat) (max allocation : List (List Int)) : Prop :=
  ∀ i < P, ∀ j < R, Go.InInt64 (cell max i j - cell allocation i j)

instance (P R : Nat) (max allocation : List (List Int)) :
    Decidable (NeedInRange P R max allocation) := by
  unfold NeedInRange; infer_instance

/-- For every resource, `available[j]` and `available[j]` plus all allocations of the
resource are inside the 64-bit range. -/
def SumInRange (P R : Nat) (available : List Int) (allocation : List (List Int)) : Prop :=
  ∀ j < R, -9223372036854775808 ≤ (available[j]?).getD 0 ∧
    (available[j]?).getD 0 + allocSum allocation (List.range P) j ≤ 9223372036854775807

instance (P R : Nat) (available : List Int) (allocation : List (List Int)) :
    Decidable (SumInRange P R available allocation) := by
  unfold SumInRange; infer_instance

/-- Releasing the allocations of `o` one after the other, starting from `work`, never
leaves the 64-bit range: every exact intermediate value of `work[j]` is representable. -/
def WorkInRange (R : Nat) (allocation : List (List Int)) (work : List Int) (o : List Nat) :
    Prop :=
  ∀ k ≤ o.length, ∀ j < R, Go.InInt64 ((work[j]?).getD 0 + allocSum allocation (o.take k) j)

instance (R : Nat) (allocation : List (List Int)) (work : List Int) (o : List Nat) :
    Decidable (WorkInRange R allocation work o) := by
  unfold WorkInRange; infer_instance

/-! ## Order-level view of the search

Under the bounds of `InBounds`, the locals `work` and `finish` are functions of `order`;
the search is then a computation on `order` and `found` alone. -/

/-- The locals determined by the order built so far. -/
def absState (P R : Nat) (allocation : List (List Int)) (w0 : List Int)
    (o : List Nat) (f : Bool) : State :=
  { work := workAfter R allocation w0 o,
    finish := (List.range P).map (fun i => decide (i ∈ o)),
    order := o, found := f }

/-- The loop body on `(order, found)`. -/
def absVisit (R : Nat) (max allocation : List (List Int)) (w0 : List Int) (i : Nat)
    (s : List Nat × Bool) : List Nat × Bool :=
  if i ∉ s.1 ∧ fitsRow R max allocation (workAfter R allocation w0 s.1) i = true then
    (s.1 ++ [i], true)
  else s

/-- One pass on `(order, found)`. -/
def absScan (R : Nat) (max allocation : List (List Int)) (w0 : List Int) :
    List Nat → List Nat × Bool → List Nat × Bool
  | [], s => s
  | i :: is, s => absScan R max allocation w0 is (absVisit R max allocation w0 i s)

/-- The outer loop on `order`, with a budget of passes. -/
def absLoop (P R : Nat) (max allocation : List (List Int)) (w0 : List Int) :
    Nat → List Nat → Option (List Nat)
  | 0, _ => none
  | fuel + 1, o =>
    let s := absScan R max allocation w0 (List.range P) (o, false)
    if s.2 then absLoop P R max allocation w0 fuel s.1 else some s.1

/-- The matrix `need` that lines 10-16 build: the 64-bit value of `max - allocation`, entry
by entry. -/
def needMatrix (P R : Nat) (max allocation : List (List Int)) : List (List Int) :=
  (List.range P).map (fun i =>
    (List.range R).map (fun j => Go.wrap64 (cell max i j - cell allocation i j)))

/-- The verdict and order computed from the final order of the search. -/
def verdictOf (P : Nat) (o : List Nat) : Bool × Option (List Nat) :=
  if (List.range P).all (fun i => decide (i ∈ o)) then (true, some o) else (false, none)

/-- The order holds distinct process indices below `P` and replays from `w0`. -/
def Good (P R : Nat) (max allocation : List (List Int)) (w0 : List Int) (o : List Nat) : Prop :=
  o.Nodup ∧ (∀ i ∈ o, i < P) ∧ replayOk R max allocation w0 o = true

/-- No process outside the order fits the work vector reached by the order. -/
def Stuck (P R : Nat) (max allocation : List (List Int)) (w0 : List Int) (o : List Nat) : Prop :=
  ∀ i < P, i ∉ o → fitsRow R max allocation (workAfter R allocation w0 o) i = false

/-- The locals are those determined by some good order. -/
def Reached (P R : Nat) (max allocation : List (List Int)) (w0 : List Int) (x : State) : Prop :=
  ∃ o f, Good P R max allocation w0 o ∧ x = absState P R allocation w0 o f

/-- The locals of `b` are those of `a` after some more processes `t` joined the order. -/
def Extends (P R : Nat) (max allocation : List (List Int)) (w0 : List Int) (a b : State) : Prop :=
  ∃ o t f g, Good P R max allocation w0 (o ++ t) ∧
    a = absState P R allocation w0 o f ∧ b = absState P R allocation w0 (o ++ t) g

/-- Component-wise `a.work <= b.work` on the `R` resource types. -/
def WorkLe (R : Nat) (a b : State) : Prop :=
  ∀ j < R, (a.work[j]?).getD 0 ≤ (b.work[j]?).getD 0

/-- The locals at the end of each pass of the outer loop (lines 28-52), one entry per pass
executed, with a budget of passes. -/
def passStates (need allocation : List (List Int)) (processes resources : Nat) :
    Nat → State → Except Fault (List State)
  | 0, _ => .error .outOfFuel
  | fuel + 1, st =>
    match scan need allocation resources (List.range processes) { st with found := false } with
    | .error e => .error e
    | .ok st1 =>
      if st1.found then
        match passStates need allocation processes resources fuel st1 with
        | .error e => .error e
        | .ok l => .ok (st1 :: l)
      else .ok [st1]

/-- The locals at the end of each pass that `isSafe` executes, with a budget of passes. -/
def searchPasses (fuel : Nat) (processes resources : Int) (available : List Int)
    (max allocation : List (List Int)) : Except Fault (List State) :=
  if processes < 0 ∨ resources < 0 then .error .negativeLen
  else
    match mkNeed max allocation resources.toNat (List.range processes.toNat) with
    | .error e => .error e
    | .ok need =>
      passStates need allocation processes.toNat resources.toNat fuel
        (initState processes.toNat resources.toNat available)

/-- A pass that ends with `found` set has finished a process that was unfinished before. -/
def Progress (a b : State) : Prop :=
  b.found = true → ∃ i : Nat, a.finish[i]? = some false ∧ b.finish[i]? = some true

/-- The matrix has at least `P` rows and each of its first `P` rows has at least `R`
entries. -/
def Covers (P R : Nat) (m : List (List Int)) : Prop :=
  P ≤ m.length ∧ ∀ i < P, R ≤ ((m[i]?).getD []).length

instance (P R : Nat) (m : List (List Int)) : Decidable (Covers P R m) := by
  unfold Covers; infer_instance

end Task3

/-! # Date filter of `task2.go`

`Date` values are triples of `Int`. The call `time.Date(y, time.Month(m), d, 0, 0, 0, 0,
time.UTC)` of the Go standard library yields a `Time` whose seconds field is a 64-bit count
of seconds since 1 January of year 1. It is modelled by `instant`: the number of the day the
arguments denote (`dayNumber`: the month is normalised into `1..12` with the overflow carried
into the year, and the day is added as an offset, as the library documents), times `86400`
and wrapped to 64 bits. `After` and `Before` compare these fields. The library computes the
count from its absolute zero year `-292277022399`; the theorems about calendar order are
stated for years between that year and its mirror image. A panic is `none`. -/

namespace Task2

/-- The struct `Date` (lines 11-15). -/
structure Date where
  Day : Int
  Month : Int
  Year : Int
  deriving DecidableEq, Repr

/-- The leap-year rule of the Gregorian calendar, as `time.Date` applies it. -/
def isLeap (year : Int) : Bool :=
  decide (year % 4 = 0) && (decide (year % 100 ≠ 0) || decide (year % 400 = 0))

/-- Days from 1 January of year 1 to 1 January of `year` (proleptic Gregorian calendar). -/
def daysBeforeYear (year : Int) : Int :=
  365 * (year - 1) + (year - 1) / 4 - (year - 1) / 100 + (year - 1) / 400

/-- Days of a non-leap year before the month with index `m` (`0` is January). -/
def daysBefore (m : Int) : Int :=
  ([0, 31, 59, 90, 120, 151, 181, 212, 243, 273, 304, 334][m.toNat]?).getD 0

/-- The number of the day that `time.Date(d.Year, time.Month(d.Month), d.Day, ...)` denotes,
counted from 1 January of year 1. The month is normalised into the year, the day is an
offset. -/
def dayNumber (d : Date) : Int :=
  let year := d.Year + (d.Month - 1) / 12
  let m := (d.Month - 1) % 12
  daysBeforeYear year + daysBefore m + (if isLeap year && decide (2 ≤ m) then 1 else 0)
    + (d.Day - 1)

/-- Model of the seconds field of `time.Date(d.Year, time.Month(d.Month), d.Day, 0, 0, 0, 0,
time.UTC)`: seconds since 1 January of year 1, in a 64-bit integer. Below the absolute zero
year of the library its unsigned intermediate results differ between releases; the model
follows the modular count there, and no theorem about calendar order covers those years. -/
def instant (d : Date) : Int :=
  Go.wrap64 (86400 * dayNumber d)

/-- The function `isDateInRange` (lines 18-23): `After(start) && Before(end)`. -/
def isDateInRange (date start endD : Date) : Bool :=
  decide (instant start < instant date) && decide (instant date < instant endD)

/-- The loop of lines 30-35 over the remaining dates, on the locals `(count, result)`. -/
def singleLoop (start endD : Date) : List Date → Nat × List Date → Nat × List Date
  | [], acc => acc
  | date :: rest, acc =>
    if isDateInRange date start endD then
      singleLoop start endD rest (acc.1 + 1, acc.2 ++ [date])
    else singleLoop start endD rest acc

/-- The function `processDatesSingleThread` (lines 27-37). -/
def processDatesSingleThread (dates : List Date) (start endD : Date) : Nat × List Date :=
  singleLoop start endD dates (0, [])

/-- The function `daysInMonth` (lines 98-110); Go's `%` is the truncated remainder. -/
def daysInMonth (year month : Int) : Int :=
  if month = 2 then
    if Int.tmod year 4 = 0 ∧ (Int.tmod year 100 ≠ 0 ∨ Int.tmod year 400 = 0) then 29 else 28
  else if month = 4 ∨ month = 6 ∨ month = 9 ∨ month = 11 then 30
  else 31

/-- A calendar date: month in `1..12`, day in `1..daysInMonth`. -/
def ValidDate (d : Date) : Prop :=
  1 ≤ d.Month ∧ d.Month ≤ 12 ∧ 1 ≤ d.Day ∧ d.Day ≤ daysInMonth d.Year d.Month

instance (d : Date) : Decidable (ValidDate d) := by
  unfold ValidDate; infer_instance

/-- The year lies between the absolute zero year of package `time` and its mirror image;
for these years the seconds count of a calendar date fits in 64 bits. -/
def InTimeRange (d : Date) : Prop :=
  -292277022399 ≤ d.Year ∧ d.Year ≤ 292277022399

instance (d : Date) : Decidable (InTimeRange d) := by
  unfold InTimeRange; infer_instance

/-- Strict calendar order: year, then month, then day. -/
def CalBefore (a b : Date) : Prop :=
  a.Year < b.Year ∨ (a.Year = b.Year ∧
    (a.Month < b.Month ∨ (a.Month = b.Month ∧ a.Day < b.Day)))

instance (a b : Date) : Decidable (CalBefore a b) := by
  unfold CalBefore; infer_instance

/-- Lines 48-62: the slices `dates[startIndex:endIndex]` handed to the goroutines with the
indices `is`; a slice bound out of range is the panic `none`. -/
def chunksFrom (dates : List Date) (numThreads chunkSize : Nat) :
    List Nat → Option (List (List Date))
  | [] => some []
  | i :: is =>
    let startIndex := i * chunkSize
    let endIndex := if i = numThreads - 1 then dates.length else (i + 1) * chunkSize
    if startIndex ≤ endIndex ∧ endIndex ≤ dates.length then
      match chunksFrom dates numThreads chunkSize is with
      | none => none
      | some cs => some ((dates.drop startIndex).take (endIndex - startIndex) :: cs)
    else none

/-- Lines 47-63: the chunks of all goroutines, in the order they are started. Division by
`numThreads = 0` panics; a negative `numThreads` starts no goroutine. -/
def chunks (dates : List Date) (numThreads : Int) : Option (List (List Date)) :=
  if numThreads = 0 then none
  else
    chunksFrom dates numThreads.toNat (dates.length / numThreads.toNat)
      (List.range numThreads.toNat)

/-- Lines 55-62: the dates one goroutine sends on the channel, in the order it sends them. -/
def worker (start endD : Date) (chunk : List Date) : List Date :=
  chunk.filter (fun date => isDateInRange date start endD)

/-- The pairs `(count, result)` that `processDatesMultiThread` (lines 41-76) can return: the
channel is closed after all goroutines are done and hands over every date sent exactly
once, in an order that depends on the scheduling; `count` is incremented once per date
received. -/
def MultiThreadReturns (dates : List Date) (start endD : Date) (numThreads : Int)
    (count : Nat) (result : List Date) : Prop :=
  match chunks dates numThreads with
  | none => False
  | some cs => result.Perm ((cs.map (worker start endD)).flatten) ∧ count = result.length

end Task2

namespace Task3

/-! ## Checked accesses inside the bounds -/

theorem idx_of_getElem? {α : Type} {xs : List α} {i : Nat} {a : α} (h : xs[i]? = some a) :
    idx xs i = .ok a := by
  simp [idx, h]

theorem idx_of_lt {xs : List Int} {i : Nat} (h : i < xs.length) :
    idx xs i = .ok ((xs[i]?).getD 0) := by
  simp [idx, List.getElem?_eq_getElem h]

theorem idx2_of_inBounds {P R : Nat} {m : List (List Int)} (hm : InBounds P R m)
    {i j : Nat} (hi : i < P) (hj : j < R) : idx2 m i j = .ok (cell m i j) := by
  obtain ⟨row, hrow, hlt⟩ := hm i hi j hj
  simp [idx2, idx, cell, hrow, List.getElem?_eq_getElem hlt]

theorem needRow_eq {P R : Nat} {max allocation : List (List Int)}
    (hmax : InBounds P R max) (halloc : InBounds P R allocation) {i : Nat} (hi : i < P) :
    ∀ js : List Nat, (∀ j ∈ js, j < R) →
      needRow max allocation i js
        = .ok (js.map (fun j => Go.wrap64 (cell max i j - cell allocation i j))) := by
  intro js
  induction js with
  | nil => intro _; rfl
  | cons j js ih =>
    intro hjs
    have hj : j < R := hjs j (List.mem_cons_self _ _)
    have hrest := ih (fun k hk => hjs k (List.mem_cons_of_mem _ hk))
    simp [needRow, idx2_of_inBounds hmax hi hj, idx2_of_inBounds halloc hi hj, hrest]

theorem mkNeed_eq_aux {P R : Nat} {max allocation : List (List Int)}
    (hmax : InBounds P R max) (halloc : InBounds P R allocation) :
    ∀ is : List Nat, (∀ i ∈ is, i < P) →
      mkNeed max allocation R is
        = .ok (is.map (fun i =>
            (List.range R).map (fun j => Go.wrap64 (cell max i j - cell allocation i j)))) := by
  intro is
  induction is with
  | nil => intro _; rfl
  | cons i is ih =>
    intro his
    have hi : i < P := his i (List.mem_cons_self _ _)
    have hrest := ih (fun k hk => his k (List.mem_cons_of_mem _ hk))
    have hrow := needRow_eq hmax halloc hi (List.range R) (fun j hj => List.mem_range.1 hj)
    simp [mkNeed, hrow, hrest]

theorem mkNeed_eq {P R : Nat} {max allocation : List (List Int)}
    (hmax : InBounds P R max) (halloc : InBounds P R allocation) :
    mkNeed max allocation R (List.range P) = .ok (needMatrix P R max allocation) :=
  mkNeed_eq_aux hmax halloc (List.range P) (fun _ hi => List.mem_range.1 hi)

theorem idx2_needMatrix {P R : Nat} (max allocation : List (List Int))
    {i j : Nat} (hi : i < P) (hj : j < R) :
    idx2 (needMatrix P R max allocation) i j
      = .ok (Go.wrap64 (cell max i j - cell allocation i j)) := by
  simp [idx2, idx, needMatrix, List.getElem?_map, List.getElem?_range hi, List.getElem?_range hj]

theorem canAllocate_eq {P R : Nat} (max allocation : List (List Int)) {work : List Int}
    (hw : work.length = R) {i : Nat} (hi : i < P) :
    ∀ js : List Nat, (∀ j ∈ js, j < R) →
      canAllocate (needMatrix P R max allocation) work i js
        = .ok (js.all (fun j =>
            decide (Go.wrap64 (cell max i j - cell allocation i j) ≤ (work[j]?).getD 0))) := by
  intro js
  induction js with
  | nil => intro _; rfl
  | cons j js ih =>
    intro hjs
    have hj : j < R := hjs j (List.mem_cons_self _ _)
    have hrest := ih (fun k hk => hjs k (List.mem_cons_of_mem _ hk))
    have hwj : idx work j = .ok ((work[j]?).getD 0) := idx_of_lt (by omega)
    simp only [canAllocate, idx2_needMatrix max allocation hi hj, hwj, hrest, List.all_cons]
    by_cases hle : Go.wrap64 (cell max i j - cell allocation i j) ≤ (work[j]?).getD 0
    · have : ¬ (Go.wrap64 (cell max i j - cell allocation i j) > (work[j]?).getD 0) := by
        omega
      simp [this, hle]
    · have : Go.wrap64 (cell max i j - cell allocation i j) > (work[j]?).getD 0 := by omega
      simp [this, hle]

theorem release_spec {P R : Nat} {allocation : List (List Int)}
    (halloc : InBounds P R allocation) {i : Nat} (hi : i < P) :
    ∀ (js : List Nat) (work : List Int), (∀ j ∈ js, j < R) → work.length = R → js.Nodup →
      ∃ w1, release allocation i js work = .ok w1 ∧ w1.length = R ∧
        ∀ j, (w1[j]?).getD 0
          = if j ∈ js then Go.wrap64 ((work[j]?).getD 0 + cell allocation i j)
            else (work[j]?).getD 0 := by
  intro js
  induction js with
  | nil => intro work _ hw _; exact ⟨work, rfl, hw, fun j => by simp⟩
  | cons k js ih =>
    intro work hjs hw hnd
    have hk : k < R := hjs k (List.mem_cons_self _ _)
    have hwk : idx work k = .ok ((work[k]?).getD 0) := idx_of_lt (by omega)
    have hnd1 := List.nodup_cons.1 hnd
    obtain ⟨w1, hrel, hlen, hget⟩ :=
      ih (work.set k (Go.wrap64 ((work[k]?).getD 0 + cell allocation i k)))
        (fun j hj => hjs j (List.mem_cons_of_mem _ hj)) (by simpa using hw) hnd1.2
    refine ⟨w1, ?_, hlen, ?_⟩
    · simp [release, hwk, idx2_of_inBounds halloc hi hk, hrel]
    · intro j
      rw [hget j]
      by_cases hjk : j = k
      · subst hjk
        have hlt : j < work.length := by omega
        simp [hnd1.1, List.getElem?_set, hlt]
      · have hkj : ¬ k = j := fun h => hjk h.symm
        simp [hjk, List.getElem?_set, hkj]

theorem release_eq {P R : Nat} {allocation : List (List Int)}
    (halloc : InBounds P R allocation) {i : Nat} (hi : i < P) {work : List Int}
    (hw : work.length = R) :
    release allocation i (List.range R) work = .ok (grant R allocation work i) := by
  obtain ⟨w1, hrel, hlen, hget⟩ :=
    release_spec halloc hi (List.range R) work (fun j hj => List.mem_range.1 hj) hw
      (List.nodup_range R)
  rw [hrel]
  congr 1
  apply List.ext_getElem?
  intro j
  by_cases hj : j < R
  · have h1 := hget j
    simp only [List.mem_range, hj, if_true] at h1
    have hj1 : j < w1.length := by omega
    rw [List.getElem?_eq_getElem hj1] at h1 ⊢
    simp only [Option.getD_some] at h1
    simp [grant, List.getElem?_map, List.getElem?_range hj, h1]
  · have hj1 : w1.length ≤ j := by omega
    have hj2 : (grant R allocation work i).length ≤ j := by simp [grant]; omega
    rw [List.getElem?_eq_none hj1, List.getElem?_eq_none hj2]

theorem length_grant (R : Nat) (allocation : List (List Int)) (work : List Int) (p : Nat) :
    (grant R allocation work p).length = R := by
  simp [grant]

theorem length_workAfter (R : Nat) (allocation : List (List Int)) :
    ∀ (o : List Nat) (work : List Int), work.length = R →
      (workAfter R allocation work o).length = R := by
  intro o
  induction o with
  | nil => intro work hw; simpa [workAfter] using hw
  | cons p ps ih =>
    intro work _
    simpa [workAfter] using ih (grant R allocation work p) (length_grant R allocation work p)

theorem workAfter_append (R : Nat) (allocation : List (List Int)) (work : List Int)
    (o : List Nat) (p : Nat) :
    workAfter R allocation work (o ++ [p]) = grant R allocation (workAfter R allocation work o) p := by
  simp [workAfter, List.foldl_append]

theorem finish_set {P : Nat} (o : List Nat) {i : Nat} :
    ((List.range P).map (fun k => decide (k ∈ o))).set i true
      = (List.range P).map (fun k => decide (k ∈ o ++ [i])) := by
  apply List.ext_getElem?
  intro k
  by_cases hk : k < P
  · by_cases hki : i = k
    · subst hki
      simp [List.getElem?_set, List.getElem?_map, List.getElem?_range hk, hk]
    · have hki2 : ¬ k = i := fun h => hki h.symm
      simp [List.getElem?_set, List.getElem?_map, List.getElem?_range hk, hki, hki2]
  · have h1 : (List.range P)[k]? = none := List.getElem?_eq_none (by simp; omega)
    by_cases hki : i = k
    · subst hki
      simp [List.getElem?_set, List.getElem?_map, h1, hk]
    · simp [List.getElem?_set, List.getElem?_map, h1, hki]

/-! ## The search refines its order-level view -/

theorem idx_finish {P : Nat} (o : List Nat) {i : Nat} (hi : i < P) :
    idx ((List.range P).map (fun k => decide (k ∈ o))) i = .ok (decide (i ∈ o)) := by
  apply idx_of_getElem?
  simp [List.getElem?_map, List.getElem?_range hi]

theorem visit_abs {P R : Nat} (max : List (List Int)) {allocation : List (List Int)}
    (halloc : InBounds P R allocation) {w0 : List Int} (hw0 : w0.length = R)
    {i : Nat} (hi : i < P) (o : List Nat) (f : Bool) :
    visit (needMatrix P R max allocation) allocation R i (absState P R allocation w0 o f)
      = .ok (absState P R allocation w0 (absVisit R max allocation w0 i (o, f)).1
          (absVisit R max allocation w0 i (o, f)).2) := by
  have hlen := length_workAfter R allocation o w0 hw0
  have hcan := canAllocate_eq max allocation hlen hi (List.range R)
    (fun j hj => List.mem_range.1 hj)
  have hrel := release_eq halloc hi hlen
  by_cases hmem : i ∈ o
  · simp [visit, absState, absVisit, idx_finish o hi, hmem]
  · by_cases hfit : fitsRow R max allocation (workAfter R allocation w0 o) i = true
    · have hcan1 : canAllocate (needMatrix P R max allocation) (workAfter R allocation w0 o) i
          (List.range R) = .ok true := by
        rw [hcan]; exact congrArg Except.ok hfit
      simp only [visit, absState, absVisit, idx_finish o hi, hmem, decide_False, hcan1, hrel,
        hfit, not_false_eq_true, and_self, if_true, finish_set, workAfter_append]
    · have hfit1 : fitsRow R max allocation (workAfter R allocation w0 o) i = false := by
        simpa using hfit
      have hcan1 : canAllocate (needMatrix P R max allocation) (workAfter R allocation w0 o) i
          (List.range R) = .ok false := by
        rw [hcan]; exact congrArg Except.ok hfit1
      simp [visit, absState, absVisit, idx_finish o hi, hmem, hcan1, hfit1]

theorem scan_abs {P R : Nat} (max : List (List Int)) {allocation : List (List Int)}
    (halloc : InBounds P R allocation) {w0 : List Int} (hw0 : w0.length = R) :
    ∀ (is : List Nat), (∀ i ∈ is, i < P) → ∀ (s : List Nat × Bool),
      scan (needMatrix P R max allocation) allocation R is (absState P R allocation w0 s.1 s.2)
        = .ok (absState P R allocation w0 (absScan R max allocation w0 is s).1
            (absScan R max allocation w0 is s).2) := by
  intro is
  induction is with
  | nil => intro _ s; rfl
  | cons i is ih =>
    intro his s
    have hi : i < P := his i (List.mem_cons_self _ _)
    have hv := visit_abs max halloc hw0 hi s.1 s.2
    simp only [scan, hv, absScan]
    exact ih (fun k hk => his k (List.mem_cons_of_mem _ hk)) _

theorem loop_abs {P R : Nat} (max : List (List Int)) {allocation : List (List Int)}
    (halloc : InBounds P R allocation) {w0 : List Int} (hw0 : w0.length = R) :
    ∀ (fuel : Nat) (o : List Nat) (f : Bool),
      loop (needMatrix P R max allocation) allocation P R fuel (absState P R allocation w0 o f)
        = match absLoop P R max allocation w0 fuel o with
          | some o1 => .ok (absState P R allocation w0 o1 false)
          | none => .error .outOfFuel := by
  intro fuel
  induction fuel with
  | zero => intro o f; rfl
  | succ n ih =>
    intro o f
    have hs := scan_abs max halloc hw0 (List.range P) (fun _ hi => List.mem_range.1 hi) (o, false)
    have hst : ({ absState P R allocation w0 o f with found := false } : State)
        = absState P R allocation w0 o false := rfl
    simp only [loop, hst, hs, absLoop]
    cases hfound : (absScan R max allocation w0 (List.range P) (o, false)).2 with
    | true =>
      simp only [absState, if_true]
      exact ih _ true
    | false =>
      simp [absState, hfound]

theorem initState_abs (P R : Nat) (available : List Int) (allocation : List (List Int)) :
    initState P R available = absState P R allocation (copyInto R available) [] false := by
  simp [initState, absState, workAfter]

theorem length_copyInto (R : Nat) (available : List Int) :
    (copyInto R available).length = R := by
  simp [copyInto]; omega

theorem copyInto_of_length {R : Nat} {available : List Int} (h : available.length = R) :
    copyInto R available = available := by
  simp [copyInto, ← h]

theorem allFinished_abs {P : Nat} (o : List Nat) :
    ∀ (is : List Nat), (∀ i ∈ is, i < P) →
      allFinished ((List.range P).map (fun k => decide (k ∈ o))) is
        = .ok (is.all (fun i => decide (i ∈ o))) := by
  intro is
  induction is with
  | nil => intro _; rfl
  | cons i is ih =>
    intro his
    have hi : i < P := his i (List.mem_cons_self _ _)
    have hrest := ih (fun k hk => his k (List.mem_cons_of_mem _ hk))
    by_cases hmem : i ∈ o
    · simp [allFinished, idx_finish o hi, hmem, hrest]
    · simp [allFinished, idx_finish o hi, hmem]

theorem searchFuel_abs {P R : Nat} (available : List Int) {max allocation : List (List Int)}
    (hmax : InBounds P R max) (halloc : InBounds P R allocation) (fuel : Nat) :
    searchFuel fuel (P : Int) (R : Int) available max allocation
      = match absLoop P R max allocation (copyInto R available) fuel [] with
        | some o => .ok (absState P R allocation (copyInto R available) o false)
        | none => .error .outOfFuel := by
  have hneg : ¬ ((P : Int) < 0 ∨ (R : Int) < 0) := by omega
  simp only [searchFuel, hneg, if_false, Int.toNat_ofNat, mkNeed_eq hmax halloc,
    initState_abs P R available allocation]
  exact loop_abs max halloc (length_copyInto R available) fuel [] false

theorem isSafe_abs {P R : Nat} (available : List Int) {max allocation : List (List Int)}
    (hmax : InBounds P R max) (halloc : InBounds P R allocation) :
    isSafe (P : Int) (R : Int) available max allocation
      = match absLoop P R max allocation (copyInto R available) (P + 1) [] with
        | some o => .ok (verdictOf P o)
        | none => .error .outOfFuel := by
  simp only [isSafe, search, Int.toNat_ofNat, searchFuel_abs available hmax halloc]
  cases absLoop P R max allocation (copyInto R available) (P + 1) [] with
  | none => rfl
  | some o =>
    simp only [absState, allFinished_abs o (List.range P) (fun _ hi => List.mem_range.1 hi),
      verdictOf]
    cases (List.range P).all (fun i => decide (i ∈ o)) <;> simp

/-! ## Invariants of the order-level search -/

theorem replayOk_append (R : Nat) (max allocation : List (List Int)) (p : Nat) :
    ∀ (o : List Nat) (w : List Int),
      replayOk R max allocation w (o ++ [p])
        = (replayOk R max allocation w o
            && fitsRow R max allocation (workAfter R allocation w o) p) := by
  intro o
  induction o with
  | nil => intro w; simp [replayOk, workAfter]
  | cons q qs ih =>
    intro w
    have h := ih (grant R allocation w q)
    simp only [workAfter] at h
    simp only [List.cons_append, replayOk, workAfter, List.foldl_cons, Bool.and_assoc,
      List.append_eq]
    rw [h]

theorem good_nil (P R : Nat) (max allocation : List (List Int)) (w0 : List Int) :
    Good P R max allocation w0 [] :=
  ⟨List.nodup_nil, fun _ h => absurd h (List.not_mem_nil _), rfl⟩

theorem good_length_le {P R : Nat} {max allocation : List (List Int)} {w0 : List Int}
    {o : List Nat} (h : Good P R max allocation w0 o) : o.length ≤ P := by
  have hsub : o ⊆ List.range P := fun i hi => List.mem_range.2 (h.2.1 i hi)
  have := (List.Nodup.subperm h.1 hsub).length_le
  simpa using this

theorem absVisit_good {P R : Nat} {max allocation : List (List Int)} {w0 : List Int}
    {i : Nat} (hi : i < P) {o : List Nat} (f : Bool) (h : Good P R max allocation w0 o) :
    Good P R max allocation w0 (absVisit R max allocation w0 i (o, f)).1 := by
  unfold absVisit
  split
  · rename_i hc
    refine ⟨?_, ?_, ?_⟩
    · exact List.Nodup.append h.1 (List.nodup_singleton i) (by simpa using hc.1)
    · intro k hk
      rcases List.mem_append.1 hk with hk | hk
      · exact h.2.1 k hk
      · simp at hk; omega
    · simp only [replayOk_append, h.2.2, hc.2, Bool.and_self]
  · exact h

theorem absScan_good {P R : Nat} {max allocation : List (List Int)} {w0 : List Int} :
    ∀ (is : List Nat), (∀ i ∈ is, i < P) → ∀ (o : List Nat) (f : Bool),
      Good P R max allocation w0 o →
      Good P R max allocation w0 (absScan R max allocation w0 is (o, f)).1 := by
  intro is
  induction is with
  | nil => intro _ o f h; exact h
  | cons i is ih =>
    intro his o f h
    have hi : i < P := his i (List.mem_cons_self _ _)
    simp only [absScan]
    exact ih (fun k hk => his k (List.mem_cons_of_mem _ hk)) _ _ (absVisit_good hi f h)

/-- A pass either changes nothing (and then nothing it looked at could be granted) or
sets `found` and makes the order strictly longer. -/
theorem absScan_cases (R : Nat) (max allocation : List (List Int)) (w0 : List Int) :
    ∀ (is : List Nat) (o : List Nat) (f : Bool),
      (absScan R max allocation w0 is (o, f) = (o, f) ∧
        ∀ i ∈ is, i ∈ o ∨ fitsRow R max allocation (workAfter R allocation w0 o) i = false) ∨
      ((absScan R max allocation w0 is (o, f)).2 = true ∧
        o.length < (absScan R max allocation w0 is (o, f)).1.length) := by
  intro is
  induction is with
  | nil => intro o f; left; exact ⟨rfl, fun _ h => absurd h (List.not_mem_nil _)⟩
  | cons i is ih =>
    intro o f
    simp only [absScan]
    by_cases hc : i ∉ o ∧ fitsRow R max allocation (workAfter R allocation w0 o) i = true
    · have hv : absVisit R max allocation w0 i (o, f) = (o ++ [i], true) := by
        simp only [absVisit, hc, not_false_eq_true, and_self, if_true]
      rw [hv]
      right
      rcases ih (o ++ [i]) true with ⟨heq, _⟩ | ⟨hf, hlen⟩
      · rw [heq]; simp
      · refine ⟨hf, ?_⟩
        have : (o ++ [i]).length = o.length + 1 := by simp
        omega
    · have hv : absVisit R max allocation w0 i (o, f) = (o, f) := by
        simp only [absVisit]
        rw [if_neg hc]
      rw [hv]
      rcases ih o f with ⟨heq, hall⟩ | hr
      · left
        refine ⟨heq, ?_⟩
        intro k hk
        rcases List.mem_cons.1 hk with hk | hk
        · subst hk
          by_cases hmem : k ∈ o
          · exact Or.inl hmem
          · right
            cases hfit : fitsRow R max allocation (workAfter R allocation w0 o) k with
            | false => rfl
            | true => exact absurd ⟨hmem, hfit⟩ hc
        · exact hall k hk
      · exact Or.inr hr

/-- With more passes allowed than processes still unfinished, the loop stops, in an order
that is good and stuck. -/
theorem absLoop_stops {P R : Nat} {max allocation : List (List Int)} {w0 : List Int} :
    ∀ (fuel : Nat) (o : List Nat), Good P R max allocation w0 o → P < fuel + o.length →
      ∃ o1, absLoop P R max allocation w0 fuel o = some o1 ∧
        Good P R max allocation w0 o1 ∧ Stuck P R max allocation w0 o1 := by
  intro fuel
  induction fuel with
  | zero =>
    intro o h hlt
    have := good_length_le h
    omega
  | succ n ih =>
    intro o h hlt
    have hgood := absScan_good (List.range P) (fun _ hi => List.mem_range.1 hi) o false h
    simp only [absLoop]
    rcases absScan_cases R max allocation w0 (List.range P) o false with ⟨heq, hall⟩ | ⟨hf, hlen⟩
    · rw [heq]
      refine ⟨o, by simp, h, ?_⟩
      intro i hi hmem
      rcases hall i (List.mem_range.2 hi) with h1 | h1
      · exact absurd h1 hmem
      · exact h1
    · rw [hf]
      simp only [if_true]
      exact ih _ hgood (by omega)

/-- A larger budget of passes does not change the outcome of the loop. -/
theorem absLoop_fuel_mono (P R : Nat) (max allocation : List (List Int)) (w0 : List Int) :
    ∀ (fuel : Nat) (o o1 : List Nat), absLoop P R max allocation w0 fuel o = some o1 →
      ∀ k, absLoop P R max allocation w0 (fuel + k) o = some o1 := by
  intro fuel
  induction fuel with
  | zero => intro o o1 h; simp [absLoop] at h
  | succ n ih =>
    intro o o1 h k
    have hk : n + 1 + k = (n + k) + 1 := by omega
    rw [hk]
    simp only [absLoop] at h ⊢
    cases hf : (absScan R max allocation w0 (List.range P) (o, false)).2 with
    | true =>
      rw [hf] at h
      simp only [if_true] at h ⊢
      exact ih _ _ h k
    | false =>
      rw [hf] at h
      simpa using h

/-! ## What the search returns -/

theorem inBounds_of_rows {P R : Nat} {m : List (List Int)} (hlen : m.length = P)
    (hrow : ∀ row ∈ m, row.length = R) : InBounds P R m := by
  intro i hi j hj
  have hi1 : i < m.length := by omega
  refine ⟨m[i], List.getElem?_eq_getElem hi1, ?_⟩
  rw [hrow _ (List.getElem_mem hi1)]
  exact hj

theorem Shaped.inBounds_max {P R : Nat} {available : List Int} {max allocation : List (List Int)}
    (h : Shaped P R available max allocation) : InBounds P R max :=
  inBounds_of_rows h.2.1 h.2.2.2.1

theorem Shaped.inBounds_allocation {P R : Nat} {available : List Int}
    {max allocation : List (List Int)}
    (h : Shaped P R available max allocation) : InBounds P R allocation :=
  inBounds_of_rows h.2.2.1 h.2.2.2.2

/-- Inside the bounds the search returns: it stops in an order that is good and stuck, and
the verdict is read off that order. -/
theorem isSafe_returns {P R : Nat} (available : List Int) {max allocation : List (List Int)}
    (hmax : InBounds P R max) (halloc : InBounds P R allocation) :
    ∃ o, Good P R max allocation (copyInto R available) o ∧
      Stuck P R max allocation (copyInto R available) o ∧
      search (P : Int) (R : Int) available max allocation
        = .ok (absState P R allocation (copyInto R available) o false) ∧
      isSafe (P : Int) (R : Int) available max allocation = .ok (verdictOf P o) := by
  obtain ⟨o, ho, hgood, hstuck⟩ :=
    absLoop_stops (P + 1) [] (good_nil P R max allocation (copyInto R available))
      (by simp)
  refine ⟨o, hgood, hstuck, ?_, ?_⟩
  · simp only [search, Int.toNat_ofNat, searchFuel_abs available hmax halloc, ho]
  · rw [isSafe_abs available hmax halloc, ho]

theorem verdictOf_true {P : Nat} {o : List Nat} (h : ∀ i < P, i ∈ o) :
    verdictOf P o = (true, some o) := by
  have : (List.range P).all (fun i => decide (i ∈ o)) = true := by
    simp only [List.all_eq_true, List.mem_range, decide_eq_true_eq]
    exact h
  simp [verdictOf, this]

theorem verdictOf_fst {P : Nat} {o : List Nat} :
    (verdictOf P o).1 = true ↔ ∀ i < P, i ∈ o := by
  unfold verdictOf
  split
  · rename_i h
    simp only [List.all_eq_true, List.mem_range, decide_eq_true_eq] at h
    simp only [true_iff]
    exact h
  · rename_i h
    simp only [List.all_eq_true, List.mem_range, decide_eq_true_eq] at h
    simp only [Bool.false_eq_true, false_iff]
    exact h

theorem good_perm {P R : Nat} {max allocation : List (List Int)} {w0 : List Int}
    {o : List Nat} (h : Good P R max allocation w0 o) (hall : ∀ i < P, i ∈ o) :
    o.Perm (List.range P) := by
  rw [List.perm_ext_iff_of_nodup h.1 (List.nodup_range P)]
  intro a
  constructor
  · intro ha; exact List.mem_range.2 (h.2.1 a ha)
  · intro ha; exact hall a (List.mem_range.1 ha)

/-! ## Work as a sum -/

theorem wrap64_of_inInt64 {x : Int} (h : Go.InInt64 x) : Go.wrap64 x = x := by
  unfold Go.InInt64 at h
  unfold Go.wrap64
  omega

theorem wrap64_inInt64 (x : Int) : Go.InInt64 (Go.wrap64 x) := by
  unfold Go.InInt64 Go.wrap64
  omega

theorem getD_grant {R : Nat} (allocation : List (List Int)) (work : List Int) (p : Nat)
    {j : Nat} (hj : j < R) :
    ((grant R allocation work p)[j]?).getD 0
      = Go.wrap64 ((work[j]?).getD 0 + cell allocation p j) := by
  simp [grant, List.getElem?_map, List.getElem?_range hj]

theorem getD_specGrant {R : Nat} (allocation : List (List Int)) (work : List Int) (p : Nat)
    {j : Nat} (hj : j < R) :
    ((specGrant R allocation work p)[j]?).getD 0 = (work[j]?).getD 0 + cell allocation p j := by
  simp [specGrant, List.getElem?_map, List.getElem?_range hj]

theorem fitsRow_iff {R : Nat} {max allocation : List (List Int)} {work : List Int} {p : Nat} :
    fitsRow R max allocation work p = true
      ↔ ∀ j < R, Go.wrap64 (cell max p j - cell allocation p j) ≤ (work[j]?).getD 0 := by
  simp [fitsRow, List.all_eq_true]

theorem specFits_iff {R : Nat} {max allocation : List (List Int)} {work : List Int} {p : Nat} :
    specFits R max allocation work p = true
      ↔ ∀ j < R, cell max p j - cell allocation p j ≤ (work[j]?).getD 0 := by
  simp [specFits, List.all_eq_true]

theorem allocSum_cons (allocation : List (List Int)) (p : Nat) (o : List Nat) (j : Nat) :
    allocSum allocation (p :: o) j = cell allocation p j + allocSum allocation o j := by
  simp [allocSum]

theorem allocSum_append (allocation : List (List Int)) (o t : List Nat) (j : Nat) :
    allocSum allocation (o ++ t) j = allocSum allocation o j + allocSum allocation t j := by
  simp [allocSum]

/-- The work vector one release later keeps the range condition for the rest of the order. -/
theorem workInRange_tail {R : Nat} {allocation : List (List Int)} {work : List Int}
    {p : Nat} {ps : List Nat} (h : WorkInRange R allocation work (p :: ps)) :
    (∀ j < R, Go.wrap64 ((work[j]?).getD 0 + cell allocation p j)
      = (work[j]?).getD 0 + cell allocation p j) ∧
    WorkInRange R allocation (grant R allocation work p) ps := by
  have h1 : ∀ j < R, Go.wrap64 ((work[j]?).getD 0 + cell allocation p j)
      = (work[j]?).getD 0 + cell allocation p j := by
    intro j hj
    apply wrap64_of_inInt64
    have := h 1 (by simp) j hj
    simpa [allocSum] using this
  refine ⟨h1, ?_⟩
  intro k hk j hj
  have := h (k + 1) (by simpa using hk) j hj
  rw [getD_grant allocation work p hj, h1 j hj]
  simp only [List.take_succ_cons, allocSum_cons] at this
  rw [Int.add_assoc]
  exact this

/-- While no intermediate value leaves the 64-bit range, `work` is the exact sum. -/
theorem getD_workAfter {R : Nat} (allocation : List (List Int)) {j : Nat} (hj : j < R) :
    ∀ (o : List Nat) (work : List Int), WorkInRange R allocation work o →
      ((workAfter R allocation work o)[j]?).getD 0
        = (work[j]?).getD 0 + allocSum allocation o j := by
  intro o
  induction o with
  | nil => intro work _; simp [workAfter, allocSum]
  | cons p ps ih =>
    intro work h
    obtain ⟨h1, h2⟩ := workInRange_tail h
    have h3 := ih (grant R allocation work p) h2
    simp only [workAfter, List.foldl_cons] at h3 ⊢
    rw [h3, getD_grant allocation work p hj, h1 j hj, allocSum_cons]
    omega

theorem sum_map_le_of_subset {f : Nat → Int} {l1 l2 : List Nat} (hnd : l1.Nodup)
    (hsub : l1 ⊆ l2) (hf : ∀ x ∈ l2, 0 ≤ f x) : (l1.map f).sum ≤ (l2.map f).sum := by
  obtain ⟨l, hperm, hsl⟩ := List.Nodup.subperm hnd hsub
  have h1 : (l1.map f).sum = (l.map f).sum := (List.Perm.map f hperm).sum_eq.symm
  rw [h1]
  apply List.Sublist.sum_le_sum (List.Sublist.map f hsl)
  intro a ha
  obtain ⟨x, hx, rfl⟩ := List.mem_map.1 ha
  exact hf x hx

theorem allocSum_nonneg {P R : Nat} {allocation : List (List Int)}
    (hnn : ∀ i < P, ∀ j < R, 0 ≤ cell allocation i j) {o : List Nat} (ho : ∀ i ∈ o, i < P)
    {j : Nat} (hj : j < R) : 0 ≤ allocSum allocation o j := by
  apply List.sum_nonneg
  intro a ha
  obtain ⟨p, hp, rfl⟩ := List.mem_map.1 ha
  exact hnn p (ho p hp) j hj

theorem allocSum_le_range {P R : Nat} {allocation : List (List Int)}
    (hnn : ∀ i < P, ∀ j < R, 0 ≤ cell allocation i j) {o : List Nat} (hnd : o.Nodup)
    (ho : ∀ i ∈ o, i < P) {j : Nat} (hj : j < R) :
    allocSum allocation o j ≤ allocSum allocation (List.range P) j :=
  sum_map_le_of_subset hnd (fun i hi => List.mem_range.2 (ho i hi))
    (fun x hx => hnn x (List.mem_range.1 hx) j hj)

/-- With non-negative allocations whose total fits, no order of distinct processes makes
`work` leave the 64-bit range. -/
theorem workInRange_of_nonneg {P R : Nat} {allocation : List (List Int)} {w0 : List Int}
    (hnn : ∀ i < P, ∀ j < R, 0 ≤ cell allocation i j) (hsum : SumInRange P R w0 allocation)
    {o : List Nat} (hnd : o.Nodup) (ho : ∀ i ∈ o, i < P) : WorkInRange R allocation w0 o := by
  intro k _ j hj
  have hnd1 : (o.take k).Nodup := List.Nodup.sublist (List.take_sublist k o) hnd
  have ho1 : ∀ i ∈ o.take k, i < P := fun i hi => ho i (List.mem_of_mem_take hi)
  have h1 := allocSum_nonneg hnn ho1 hj
  have h2 := allocSum_le_range hnn hnd1 ho1 hj
  have h3 := hsum j hj
  unfold Go.InInt64
  omega

/-- While need and work stay inside the 64-bit range, the code's test is the exact one. -/
theorem fitsRow_eq_specFits {P R : Nat} {max allocation : List (List Int)}
    (hneed : NeedInRange P R max allocation) (work : List Int) {p : Nat} (hp : p < P) :
    fitsRow R max allocation work p = specFits R max allocation work p := by
  have hw : ∀ j < R, Go.wrap64 (cell max p j - cell allocation p j)
      = cell max p j - cell allocation p j :=
    fun j hj => wrap64_of_inInt64 (hneed p hp j hj)
  apply Bool.eq_iff_iff.2
  rw [fitsRow_iff, specFits_iff]
  constructor
  · intro h j hj; rw [← hw j hj]; exact h j hj
  · intro h j hj; rw [hw j hj]; exact h j hj

theorem grant_eq_specGrant {R : Nat} {allocation : List (List Int)} {work : List Int}
    {p : Nat} (h : ∀ j < R, Go.wrap64 ((work[j]?).getD 0 + cell allocation p j)
      = (work[j]?).getD 0 + cell allocation p j) :
    grant R allocation work p = specGrant R allocation work p := by
  unfold grant specGrant
  apply List.map_congr_left
  intro j hj
  exact h j (List.mem_range.1 hj)

/-- While need and work stay inside the 64-bit range, the replay of the code's arithmetic
is the exact replay. -/
theorem replayOk_eq_specReplayOk {P R : Nat} {max allocation : List (List Int)}
    (hneed : NeedInRange P R max allocation) :
    ∀ (σ : List Nat) (work : List Int), (∀ p ∈ σ, p < P) → WorkInRange R allocation work σ →
      replayOk R max allocation work σ = specReplayOk R max allocation work σ := by
  intro σ
  induction σ with
  | nil => intro _ _ _; rfl
  | cons p ps ih =>
    intro work hlt h
    obtain ⟨h1, h2⟩ := workInRange_tail h
    have hp : p < P := hlt p (List.mem_cons_self _ _)
    simp only [replayOk, specReplayOk, fitsRow_eq_specFits hneed work hp]
    rw [← grant_eq_specGrant h1, ih _ (fun q hq => hlt q (List.mem_cons_of_mem _ hq)) h2]

/-- With non-negative allocations whose total fits, every order that replays is swallowed
by a stuck order. -/
theorem stuck_complete {P R : Nat} {max allocation : List (List Int)} {w0 : List Int}
    {o : List Nat} (hgood : Good P R max allocation w0 o) (hstuck : Stuck P R max allocation w0 o)
    (hnn : ∀ i < P, ∀ j < R, 0 ≤ cell allocation i j) (hsum : SumInRange P R w0 allocation) :
    ∀ (rest done : List Nat), (∀ p ∈ done, p ∈ o) → (done ++ rest).Nodup →
      (∀ p ∈ rest, p < P) →
      replayOk R max allocation (workAfter R allocation w0 done) rest = true →
      ∀ p ∈ rest, p ∈ o := by
  intro rest
  induction rest with
  | nil => intro _ _ _ _ _ p hp; exact absurd hp (List.not_mem_nil _)
  | cons q qs ih =>
    intro done hdone hnd hlt hrep
    simp only [replayOk, Bool.and_eq_true] at hrep
    have hq : q < P := hlt q (List.mem_cons_self _ _)
    have hdnd : done.Nodup := (List.nodup_append.1 hnd).1
    have hdlt : ∀ p ∈ done, p < P := fun p hp => hgood.2.1 p (hdone p hp)
    have hqo : q ∈ o := by
      by_contra hno
      have hfalse := hstuck q hq hno
      have hfit : fitsRow R max allocation (workAfter R allocation w0 o) q = true := by
        rw [fitsRow_iff]
        intro j hj
        have h1 := (fitsRow_iff.1 hrep.1) j hj
        rw [getD_workAfter allocation hj _ _ (workInRange_of_nonneg hnn hsum hdnd hdlt)] at h1
        rw [getD_workAfter allocation hj _ _ (workInRange_of_nonneg hnn hsum hgood.1 hgood.2.1)]
        have h2 : allocSum allocation done j ≤ allocSum allocation o j :=
          sum_map_le_of_subset hdnd hdone (fun x hx => hnn x (hgood.2.1 x hx) j hj)
        omega
      rw [hfit] at hfalse
      exact Bool.noConfusion hfalse
    have hnd2 : ((done ++ [q]) ++ qs).Nodup := by simpa using hnd
    have hrep2 : replayOk R max allocation (workAfter R allocation w0 (done ++ [q])) qs = true := by
      rw [workAfter_append]; exact hrep.2
    have hdone2 : ∀ p ∈ done ++ [q], p ∈ o := by
      intro p hp
      rcases List.mem_append.1 hp with hp | hp
      · exact hdone p hp
      · simp at hp; subst hp; exact hqo
    intro p hp
    rcases List.mem_cons.1 hp with hp | hp
    · subst hp; exact hqo
    · exact ih (done ++ [q]) hdone2 hnd2 (fun x hx => hlt x (List.mem_cons_of_mem _ hx)) hrep2 p hp

/-! ## Ascending first pass -/

theorem absScan_of_all_mem (R : Nat) (max allocation : List (List Int)) (w0 : List Int)
    (o : List Nat) (f : Bool) :
    ∀ (is : List Nat), (∀ i ∈ is, i ∈ o) → absScan R max allocation w0 is (o, f) = (o, f) := by
  intro is
  induction is with
  | nil => intro _; rfl
  | cons i is ih =>
    intro h
    have hi : i ∈ o := h i (List.mem_cons_self _ _)
    have hv : absVisit R max allocation w0 i (o, f) = (o, f) := by
      simp [absVisit, hi]
    simp only [absScan, hv]
    exact ih (fun k hk => h k (List.mem_cons_of_mem _ hk))

theorem absScan_ascending (R : Nat) (max allocation : List (List Int)) (w0 : List Int) :
    ∀ (n k : Nat) (f : Bool),
      (∀ i, k ≤ i → i < k + n →
        fitsRow R max allocation (workAfter R allocation w0 (List.range i)) i = true) →
      absScan R max allocation w0 (List.range' k n) (List.range k, f)
        = (List.range (k + n), f || decide (0 < n)) := by
  intro n
  induction n with
  | zero => intro k f _; simp [absScan]
  | succ n ih =>
    intro k f h
    have hk := h k (Nat.le_refl k) (by omega)
    have hv : absVisit R max allocation w0 k (List.range k, f) = (List.range (k + 1), true) := by
      simp [absVisit, hk, List.range_succ]
    simp only [List.range', absScan, hv]
    rw [ih (k + 1) true (fun i h1 h2 => h i (by omega) (by omega))]
    have : k + 1 + n = k + (n + 1) := by omega
    simp [this]

/-- When every process fits the work released by the lower-indexed ones, the search
finishes all of them in the first pass, in ascending order. -/
theorem absLoop_ascending {P R : Nat} {max allocation : List (List Int)} {w0 : List Int}
    (h : ∀ i < P, fitsRow R max allocation (workAfter R allocation w0 (List.range i)) i = true) :
    absLoop P R max allocation w0 (P + 1) [] = some (List.range P) := by
  have h1 := absScan_ascending R max allocation w0 P 0 false
    (fun i _ hi => h i (by omega))
  simp only [List.range_zero, Nat.zero_add, Bool.false_or] at h1
  rw [← List.range_eq_range'] at h1
  simp only [absLoop, h1]
  cases P with
  | zero => simp
  | succ n =>
    have h2 := absScan_of_all_mem R max allocation w0 (List.range (n + 1)) false
      (List.range (n + 1)) (fun _ hi => hi)
    simp [absLoop, h2]

theorem isSafe_ascending {P R : Nat} (available : List Int) {max allocation : List (List Int)}
    (hmax : InBounds P R max) (halloc : InBounds P R allocation)
    (h : ∀ i < P, fitsRow R max allocation
      (workAfter R allocation (copyInto R available) (List.range i)) i = true) :
    isSafe (P : Int) (R : Int) available max allocation = .ok (true, some (List.range P)) := by
  rw [isSafe_abs available hmax halloc, absLoop_ascending h]
  simp only []
  rw [verdictOf_true (fun i hi => List.mem_range.2 hi)]

/-- Inside the bounds, any budget of at least `P + 1` passes gives the result of `search`. -/
theorem searchFuel_irrelevant {P R : Nat} (available : List Int)
    {max allocation : List (List Int)}
    (hmax : InBounds P R max) (halloc : InBounds P R allocation) (k : Nat) :
    searchFuel (P + 1 + k) (P : Int) (R : Int) available max allocation
      = search (P : Int) (R : Int) available max allocation := by
  obtain ⟨o, ho, _, _⟩ :=
    absLoop_stops (P + 1) [] (good_nil P R max allocation (copyInto R available)) (by simp)
  simp only [search, Int.toNat_ofNat, searchFuel_abs available hmax halloc, ho,
    absLoop_fuel_mono P R max allocation (copyInto R available) (P + 1) [] o ho k]

/-! ## The trace of the search -/

theorem lastState_append (a : State) (l1 l2 : List State) :
    lastState a (l1 ++ l2) = lastState (lastState a l1) l2 := by
  induction l1 generalizing a with
  | nil => rfl
  | cons s tr ih => simpa [lastState] using ih s

theorem getLast?_eq_lastState (a : State) (tr : List State) (h : tr ≠ []) :
    tr.getLast? = some (lastState a tr) := by
  induction tr generalizing a with
  | nil => exact absurd rfl h
  | cons s tr ih =>
    cases tr with
    | nil => rfl
    | cons t tr => simpa [lastState] using ih s (by simp)

/-- A pass ends in the last state of its trace. -/
theorem scan_eq_lastState (need allocation : List (List Int)) (R : Nat) :
    ∀ (is : List Nat) (st : State),
      scan need allocation R is st
        = (scanTrace need allocation R is st).map (lastState st) := by
  intro is
  induction is with
  | nil => intro st; rfl
  | cons i is ih =>
    intro st
    simp only [scan, scanTrace]
    cases visit need allocation R i st with
    | error e => rfl
    | ok st1 =>
      simp only [ih st1]
      cases scanTrace need allocation R is st1 with
      | error e => rfl
      | ok tr => rfl

/-- The loop ends in the last state of its trace, and the trace is never empty. -/
theorem loop_eq_lastState (need allocation : List (List Int)) (P R : Nat) :
    ∀ (fuel : Nat) (st : State),
      loop need allocation P R fuel st
        = (loopTrace need allocation P R fuel st).map (lastState st) ∧
      ∀ tr, loopTrace need allocation P R fuel st = .ok tr → tr ≠ [] := by
  intro fuel
  induction fuel with
  | zero => intro st; exact ⟨rfl, fun tr h => Except.noConfusion h⟩
  | succ n ih =>
    intro st
    simp only [loop, loopTrace, scan_eq_lastState]
    cases scanTrace need allocation R (List.range P) { st with found := false } with
    | error e => exact ⟨rfl, fun tr h => Except.noConfusion h⟩
    | ok tr =>
      simp only [Except.map]
      cases hf : (lastState { st with found := false } tr).found with
      | false =>
        simp only [Bool.false_eq_true, if_false]
        refine ⟨rfl, ?_⟩
        intro tr1 h
        injection h with h
        rw [← h]
        simp
      | true =>
        simp only [if_true]
        have h1 := ih (lastState { st with found := false } tr)
        rw [h1.1]
        cases loopTrace need allocation P R n (lastState { st with found := false } tr) with
        | error e => exact ⟨rfl, fun tr h => Except.noConfusion h⟩
        | ok tr2 =>
          refine ⟨?_, ?_⟩
          · simp only [Except.map, lastState, lastState_append]
          · intro tr1 h
            injection h with h
            rw [← h]
            simp

theorem search_eq_lastState (processes resources : Int) (available : List Int)
    (max allocation : List (List Int)) :
    search processes resources available max allocation
      = (searchTrace processes resources available max allocation).map
          (lastState (initState processes.toNat resources.toNat available)) := by
  simp only [search, searchFuel, searchTrace]
  split
  · rfl
  · cases mkNeed max allocation resources.toNat (List.range processes.toNat) with
    | error e => rfl
    | ok need => exact (loop_eq_lastState need allocation _ _ _ _).1

theorem scanTrace_reached {P R : Nat} (max : List (List Int)) {allocation : List (List Int)}
    (halloc : InBounds P R allocation) {w0 : List Int} (hw0 : w0.length = R) :
    ∀ (is : List Nat), (∀ i ∈ is, i < P) → ∀ (o : List Nat) (f : Bool),
      Good P R max allocation w0 o →
      ∃ tr, scanTrace (needMatrix P R max allocation) allocation R is
          (absState P R allocation w0 o f) = .ok tr ∧
        ∀ x ∈ tr, Reached P R max allocation w0 x := by
  intro is
  induction is with
  | nil => intro _ o f _; exact ⟨[], rfl, fun _ h => absurd h (List.not_mem_nil _)⟩
  | cons i is ih =>
    intro his o f hgood
    have hi : i < P := his i (List.mem_cons_self _ _)
    have hv := visit_abs max halloc hw0 hi o f
    have hg1 := absVisit_good hi f hgood
    obtain ⟨tr, htr, hall⟩ := ih (fun k hk => his k (List.mem_cons_of_mem _ hk))
      (absVisit R max allocation w0 i (o, f)).1 (absVisit R max allocation w0 i (o, f)).2 hg1
    refine ⟨absState P R allocation w0 (absVisit R max allocation w0 i (o, f)).1
      (absVisit R max allocation w0 i (o, f)).2 :: tr, by simp only [scanTrace, hv, htr], ?_⟩
    intro x hx
    rcases List.mem_cons.1 hx with hx | hx
    · exact ⟨_, _, hg1, hx⟩
    · exact hall x hx

theorem loopTrace_reached {P R : Nat} (max : List (List Int)) {allocation : List (List Int)}
    (halloc : InBounds P R allocation) {w0 : List Int} (hw0 : w0.length = R) :
    ∀ (fuel : Nat) (o : List Nat) (f : Bool), Good P R max allocation w0 o →
      ∀ tr, loopTrace (needMatrix P R max allocation) allocation P R fuel
          (absState P R allocation w0 o f) = .ok tr →
        ∀ x ∈ tr, Reached P R max allocation w0 x := by
  intro fuel
  induction fuel with
  | zero => intro o f _ tr h; exact Except.noConfusion h
  | succ n ih =>
    intro o f hgood tr h
    have hrange : ∀ i ∈ List.range P, i < P := fun _ hi => List.mem_range.1 hi
    have hst : ({ absState P R allocation w0 o f with found := false } : State)
        = absState P R allocation w0 o false := rfl
    obtain ⟨tr1, htr1, hall1⟩ := scanTrace_reached max halloc hw0 (List.range P) hrange o false hgood
    have hlast : lastState (absState P R allocation w0 o false) tr1
        = absState P R allocation w0
            (absScan R max allocation w0 (List.range P) (o, false)).1
            (absScan R max allocation w0 (List.range P) (o, false)).2 := by
      have h1 := scan_eq_lastState (needMatrix P R max allocation) allocation R (List.range P)
        (absState P R allocation w0 o false)
      rw [scan_abs max halloc hw0 (List.range P) hrange (o, false), htr1] at h1
      simp only [Except.map] at h1
      injection h1 with h1
      exact h1.symm
    have hg1 := absScan_good (List.range P) hrange o false hgood
    have h0 : Reached P R max allocation w0 (absState P R allocation w0 o false) :=
      ⟨o, false, hgood, rfl⟩
    simp only [loopTrace, hst, htr1, hlast] at h
    split at h
    · split at h
      · exact Except.noConfusion h
      · rename_i tr2 htr2
        injection h with h
        rw [← h]
        intro x hx
        rcases List.mem_cons.1 hx with hx | hx
        · rw [hx]; exact h0
        · rcases List.mem_append.1 hx with hx | hx
          · exact hall1 x hx
          · exact ih _ _ hg1 tr2 htr2 x hx
    · injection h with h
      rw [← h]
      intro x hx
      rcases List.mem_cons.1 hx with hx | hx
      · rw [hx]; exact h0
      · exact hall1 x hx

/-- Non-negative `available` and allocations whose total fits keep the work of an order of
distinct processes non-negative. -/
theorem workAfter_nonneg {P R : Nat} {allocation : List (List Int)} {w0 : List Int}
    (hw0 : w0.length = R) (hav : ∀ x ∈ w0, 0 ≤ x)
    (hnn : ∀ i < P, ∀ j < R, 0 ≤ cell allocation i j) (hsum : SumInRange P R w0 allocation)
    {o : List Nat} (hnd : o.Nodup) (ho : ∀ i ∈ o, i < P) :
    ∀ x ∈ workAfter R allocation w0 o, 0 ≤ x := by
  intro x hx
  obtain ⟨j, hj, hjx⟩ := List.getElem_of_mem hx
  have hlen := length_workAfter R allocation o w0 hw0
  have hjR : j < R := by omega
  have h1 := getD_workAfter allocation hjR o w0 (workInRange_of_nonneg hnn hsum hnd ho)
  rw [List.getElem?_eq_getElem hj, hjx] at h1
  simp only [Option.getD_some] at h1
  have hj0 : j < w0.length := by omega
  have h2 : (0 : Int) ≤ (w0[j]?).getD 0 := by
    rw [List.getElem?_eq_getElem hj0]
    exact hav _ (List.getElem_mem hj0)
  have h3 := allocSum_nonneg hnn ho hjR
  omega

theorem eq_map_range_of_getD {R : Nat} {l : List Int} (hlen : l.length = R) (f : Nat → Int)
    (h : ∀ j < R, (l[j]?).getD 0 = f j) : l = (List.range R).map f := by
  apply List.ext_getElem?
  intro j
  by_cases hj : j < R
  · have h1 := h j hj
    have hj1 : j < l.length := by omega
    rw [List.getElem?_eq_getElem hj1] at h1 ⊢
    simp only [Option.getD_some] at h1
    simp [List.getElem?_map, List.getElem?_range hj, h1]
  · have hj1 : l.length ≤ j := by omega
    have hj2 : ((List.range R).map f).length ≤ j := by simp; omega
    rw [List.getElem?_eq_none hj1, List.getElem?_eq_none hj2]

/-! ## The claims -/

/-- C1, as stated, fails: `work` wraps around at `math.MaxInt64`. The order `[1, 0]`
replays, yet `isSafe` grants process 0 first, `work` becomes negative, and the verdict is
`false`. -/
theorem isSafe_complete_counterexample :
    Shaped 2 1 [Go.maxInt64] [[1], [0]] [[1], [0]] ∧
      (∀ i < 2, ∀ j < 1, 0 ≤ cell [[1], [0]] i j) ∧
      List.Perm [1, 0] (List.range 2) ∧
      specReplayOk 1 [[1], [0]] [[1], [0]] [Go.maxInt64] [1, 0] = true ∧
      isSafe 2 1 [Go.maxInt64] [[1], [0]] [[1], [0]] = .ok (false, none) := by
  decide

/-- C1 (amended: completeness of the verdict inside the 64-bit range). For a snapshot with
`P` rows of `R` entries in `max` and `allocation`, `available` of length `R`, non-negative
allocations, every `need[i][j]` representable and `available[j]` plus all allocations of
resource `j` representable: if some permutation `σ` of `0..P-1` replays from
`work = available`, then `isSafe` returns `true`. -/
theorem isSafe_complete (P R : Nat) (available : List Int) (max allocation : List (List Int))
    (σ : List Nat)
    (hshape : Shaped P R available max allocation)
    (hnn : ∀ i < P, ∀ j < R, 0 ≤ cell allocation i j)
    (hneed : NeedInRange P R max allocation)
    (hsum : SumInRange P R available allocation)
    (hperm : σ.Perm (List.range P))
    (hreplay : specReplayOk R max allocation available σ = true) :
    ∃ order, isSafe (P : Int) (R : Int) available max allocation = .ok (true, some order) := by
  obtain ⟨o, hgood, hstuck, _, hres⟩ :=
    isSafe_returns available hshape.inBounds_max hshape.inBounds_allocation
  rw [copyInto_of_length hshape.1] at hgood hstuck
  have hσ : σ.Nodup := hperm.nodup_iff.2 (List.nodup_range P)
  have hσlt : ∀ p ∈ σ, p < P := fun p hp => List.mem_range.1 (hperm.mem_iff.1 hp)
  have hrep : replayOk R max allocation available σ = true := by
    rw [replayOk_eq_specReplayOk hneed σ available hσlt
      (workInRange_of_nonneg hnn hsum hσ hσlt)]
    exact hreplay
  have hall : ∀ i < P, i ∈ o := by
    intro i hi
    exact stuck_complete hgood hstuck hnn hsum σ [] (fun _ h => absurd h (List.not_mem_nil _))
      (by simpa using hσ) hσlt (by simpa [workAfter] using hrep) i
      (hperm.mem_iff.2 (List.mem_range.2 hi))
  exact ⟨o, by rw [hres, verdictOf_true hall]⟩

/-- Witness of the amended C1 on the reference snapshot, with the order `[3, 1, 4, 0, 2]`. -/
theorem isSafe_complete_witness :
    ∃ order, isSafe ((5 : Nat) : Int) ((3 : Nat) : Int) [3, 3, 2] refMax refAllocation
      = .ok (true, some order) :=
  isSafe_complete 5 3 [3, 3, 2] refMax refAllocation [3, 1, 4, 0, 2]
    (by decide) (by decide) (by decide) (by decide) (by decide) (by decide)

/-- C2, as stated, fails: `max - allocation` wraps around. With `max = MaxInt64` and
`allocation = -1` the stored need is `MinInt64`, so `isSafe` returns `(true, [0])`, while
the exact need `2^63` exceeds `work = 0`. -/
theorem isSafe_order_valid_counterexample :
    Shaped 1 1 [0] [[Go.maxInt64]] [[-1]] ∧
      isSafe 1 1 [0] [[Go.maxInt64]] [[-1]] = .ok (true, some [0]) ∧
      specReplayOk 1 [[Go.maxInt64]] [[-1]] [0] [0] = false := by
  decide

/-- C2 (amended: order validity). For a snapshot with `P` rows of `R` entries and `available`
of length `R`: if `isSafe` returns `(true, order)` then `order` is a permutation of
`0..P-1`, replaying it from `work = available` succeeds at every step in the 64-bit
arithmetic of the code, and it succeeds at every step in exact arithmetic when every
`need[i][j]` and every intermediate value of `work` of that replay is representable. -/
theorem isSafe_order_valid (P R : Nat) (available : List Int) (max allocation : List (List Int))
    (order : List Nat)
    (hshape : Shaped P R available max allocation)
    (hsafe : isSafe (P : Int) (R : Int) available max allocation = .ok (true, some order)) :
    order.Perm (List.range P) ∧ replayOk R max allocation available order = true ∧
      (NeedInRange P R max allocation → WorkInRange R allocation available order →
        specReplayOk R max allocation available order = true) := by
  obtain ⟨o, hgood, _, _, hres⟩ :=
    isSafe_returns available hshape.inBounds_max hshape.inBounds_allocation
  rw [copyInto_of_length hshape.1] at hgood
  rw [hres] at hsafe
  have hv : verdictOf P o = (true, some order) := by injection hsafe
  have hall : ∀ i < P, i ∈ o := verdictOf_fst.1 (by rw [hv])
  rw [verdictOf_true hall] at hv
  have ho : o = order := by
    have := congrArg Prod.snd hv
    simpa using this
  subst ho
  refine ⟨good_perm hgood hall, hgood.2.2, ?_⟩
  intro hneed hwork
  rw [← replayOk_eq_specReplayOk hneed o available hgood.2.1 hwork]
  exact hgood.2.2

/-- Witness of the amended C2 on the reference snapshot. -/
theorem isSafe_order_valid_witness :
    List.Perm [1, 3, 4, 0, 2] (List.range 5) ∧
      replayOk 3 refMax refAllocation [3, 3, 2] [1, 3, 4, 0, 2] = true ∧
      specReplayOk 3 refMax refAllocation [3, 3, 2] [1, 3, 4, 0, 2] = true :=
  ⟨(isSafe_order_valid 5 3 [3, 3, 2] refMax refAllocation [1, 3, 4, 0, 2]
      (by decide) (by decide)).1,
    (isSafe_order_valid 5 3 [3, 3, 2] refMax refAllocation [1, 3, 4, 0, 2]
      (by decide) (by decide)).2.1,
    (isSafe_order_valid 5 3 [3, 3, 2] refMax refAllocation [1, 3, 4, 0, 2]
      (by decide) (by decide)).2.2 (by decide) (by decide)⟩

/-- C3 (reference scenario). On the snapshot of `main`, `isSafe` returns
`(true, [1, 3, 4, 0, 2])`. -/
theorem isSafe_reference :
    isSafe 5 3 [3, 3, 2] refMax refAllocation = .ok (true, some [1, 3, 4, 0, 2]) := by
  decide

/-- C4 (unsafe scenario). With `available = [0, 0, 0]` and the reference matrices, `isSafe`
returns the verdict `false`. -/
theorem isSafe_reference_unsafe :
    isSafe 5 3 [0, 0, 0] refMax refAllocation = .ok (false, none) := by
  decide

/-- C5 (no processes). For every number `R` of resource types and every `available`, with
`P = 0` and empty `max` and `allocation`, `isSafe` returns `(true, [])`. -/
theorem isSafe_no_processes (R : Nat) (available : List Int) :
    isSafe 0 (R : Int) available [] [] = .ok (true, some []) := by
  have h := @isSafe_ascending 0 R available [] []
    (fun i hi => absurd hi (Nat.not_lt_zero i)) (fun i hi => absurd hi (Nat.not_lt_zero i))
    (fun i hi => absurd hi (Nat.not_lt_zero i))
  simpa using h

/-- C6, as stated, fails: with one process and no resource types `isSafe` returns the
order `[0]`, not the empty order. -/
theorem isSafe_no_resources_counterexample :
    isSafe 1 0 [] [[]] [[]] = .ok (true, some [0]) ∧
      isSafe 1 0 [] [[]] [[]] ≠ .ok (true, some []) := by
  decide

/-- C6 (amended). For every `P` and `R = 0` (`available` empty, every row of `max` and
`allocation` empty), `isSafe` returns `true` with the order `[0, 1, ..., P-1]`. -/
theorem isSafe_no_resources (P : Nat) (available : List Int) (max allocation : List (List Int))
    (_hshape : Shaped P 0 available max allocation) :
    isSafe (P : Int) 0 available max allocation = .ok (true, some (List.range P)) := by
  have h := @isSafe_ascending P 0 available max allocation
    (fun _ _ j hj => absurd hj (Nat.not_lt_zero j))
    (fun _ _ j hj => absurd hj (Nat.not_lt_zero j))
    (fun _ _ => by simp [fitsRow])
  simpa using h

/-- Witness of the amended C6 with three processes. -/
theorem isSafe_no_resources_witness :
    Shaped 3 0 [] [[], [], []] [[], [], []] ∧
      isSafe ((3 : Nat) : Int) 0 [] [[], [], []] [[], [], []] = .ok (true, some (List.range 3)) :=
  ⟨by decide, isSafe_no_resources 3 [] [[], [], []] [[], [], []] (by decide)⟩

/-- C7, as stated, fails: with `available = [MaxInt64]`, non-negative allocations and
`max = allocation`, releasing process 0 wraps `work` to `MinInt64`, process 1 no longer
fits, and `isSafe` returns `false`. -/
theorem isSafe_zero_need_counterexample :
    Shaped 2 1 [Go.maxInt64] [[1], [0]] [[1], [0]] ∧
      (∀ x ∈ [Go.maxInt64], 0 ≤ x) ∧
      (∀ i < 2, ∀ j < 1, cell [[1], [0]] i j = cell [[1], [0]] i j ∧ 0 ≤ cell [[1], [0]] i j) ∧
      (search 2 1 [Go.maxInt64] [[1], [0]] [[1], [0]]).map State.work = .ok [Go.minInt64] ∧
      isSafe 2 1 [Go.maxInt64] [[1], [0]] [[1], [0]] ≠ .ok (true, some (List.range 2)) := by
  decide

/-- C7 (amended: all-zero need inside the 64-bit range). For a well-formed snapshot (`P` rows
of `R` entries, `available[j] >= 0`, `allocation[i][j] >= 0`) with
`max[i][j] = allocation[i][j]` for all `i, j` and `available[j]` plus all allocations of
resource `j` representable, `isSafe` returns `(true, [0, 1, ..., P-1])`. -/
theorem isSafe_zero_need (P R : Nat) (available : List Int) (max allocation : List (List Int))
    (hshape : Shaped P R available max allocation)
    (hav : ∀ x ∈ available, 0 ≤ x)
    (hnn : ∀ i < P, ∀ j < R, 0 ≤ cell allocation i j)
    (hzero : ∀ i < P, ∀ j < R, cell max i j = cell allocation i j)
    (hsum : SumInRange P R available allocation) :
    isSafe (P : Int) (R : Int) available max allocation = .ok (true, some (List.range P)) := by
  apply isSafe_ascending available hshape.inBounds_max hshape.inBounds_allocation
  intro i hi
  rw [fitsRow_iff]
  intro j hj
  have hlt : ∀ p ∈ List.range i, p < P := fun p hp => by
    have := List.mem_range.1 hp
    omega
  rw [copyInto_of_length hshape.1,
    getD_workAfter allocation hj _ _
      (workInRange_of_nonneg hnn hsum (List.nodup_range i) hlt),
    hzero i hi j hj]
  have h1 : (0 : Int) ≤ (available[j]?).getD 0 := by
    have hj1 : j < available.length := by rw [hshape.1]; exact hj
    rw [List.getElem?_eq_getElem hj1]
    exact hav _ (List.getElem_mem hj1)
  have h2 := allocSum_nonneg hnn hlt hj
  have h3 : Go.wrap64 (cell allocation i j - cell allocation i j) = 0 := by
    rw [Int.sub_self]; rfl
  omega

/-- Witness of the amended C7: three processes holding exactly their maximum. -/
theorem isSafe_zero_need_witness :
    isSafe ((3 : Nat) : Int) ((2 : Nat) : Int) [0, 1] [[1, 0], [2, 2], [0, 3]]
      [[1, 0], [2, 2], [0, 3]] = .ok (true, some (List.range 3)) :=
  isSafe_zero_need 3 2 [0, 1] [[1, 0], [2, 2], [0, 3]] [[1, 0], [2, 2], [0, 3]]
    (by decide) (by decide) (by decide) (by decide) (by decide)

/-- C8, as stated, fails: on a well-formed snapshot with `available = [MaxInt64]` the verdict
is `true`, but the final `work` has wrapped to `MinInt64`: it is negative and is not
`available` plus the allocations. -/
theorem isSafe_conservation_counterexample :
    Shaped 1 1 [Go.maxInt64] [[1]] [[1]] ∧
      (∀ x ∈ [Go.maxInt64], 0 ≤ x) ∧
      (∀ i < 1, ∀ j < 1, 0 ≤ cell [[1]] i j ∧ cell [[1]] i j ≤ cell [[1]] i j) ∧
      isSafe 1 1 [Go.maxInt64] [[1]] [[1]] = .ok (true, some [0]) ∧
      (search 1 1 [Go.maxInt64] [[1]] [[1]]).map State.work = .ok [Go.minInt64] ∧
      Go.minInt64 < 0 ∧ Go.minInt64 ≠ Go.maxInt64 + 1 := by
  decide

/-- C8 (amended: conservation inside the 64-bit range). For a well-formed snapshot
(dimensions `P x R`, `available[j] >= 0`, `0 <= allocation[i][j] <= max[i][j]`) in which
`available[j]` plus all allocations of resource `j` is representable, and on which `isSafe`
returns `true`: every state the search goes through has `work[j] >= 0` for every `j`, and
the final `work` is `available[j]` plus the sum of `allocation[i][j]` over all `i` in
`0..P-1`. -/
theorem isSafe_conservation (P R : Nat) (available : List Int) (max allocation : List (List Int))
    (order : List Nat)
    (hshape : Shaped P R available max allocation)
    (hav : ∀ x ∈ available, 0 ≤ x)
    (hbound : ∀ i < P, ∀ j < R, 0 ≤ cell allocation i j ∧ cell allocation i j ≤ cell max i j)
    (hsum : SumInRange P R available allocation)
    (hsafe : isSafe (P : Int) (R : Int) available max allocation = .ok (true, some order)) :
    ∃ tr st, searchTrace (P : Int) (R : Int) available max allocation = .ok tr ∧
      tr.getLast? = some st ∧
      search (P : Int) (R : Int) available max allocation = .ok st ∧
      (∀ s ∈ tr, ∀ x ∈ s.work, 0 ≤ x) ∧
      st.work = (List.range R).map (fun j =>
        (available[j]?).getD 0 + ((List.range P).map (fun i => cell allocation i j)).sum) := by
  have hmax := hshape.inBounds_max
  have halloc := hshape.inBounds_allocation
  have hnn : ∀ i < P, ∀ j < R, 0 ≤ cell allocation i j := fun i hi j hj => (hbound i hi j hj).1
  obtain ⟨o, hgood, _, hsearch, hres⟩ := isSafe_returns available hmax halloc
  rw [copyInto_of_length hshape.1] at hgood hsearch
  rw [hres] at hsafe
  have hv : verdictOf P o = (true, some order) := by injection hsafe
  have hall : ∀ i < P, i ∈ o := verdictOf_fst.1 (by rw [hv])
  have hlink := search_eq_lastState (P : Int) (R : Int) available max allocation
  rw [hsearch] at hlink
  cases htr : searchTrace (P : Int) (R : Int) available max allocation with
  | error e => rw [htr] at hlink; exact Except.noConfusion hlink
  | ok tr =>
    rw [htr] at hlink
    simp only [Except.map] at hlink
    injection hlink with hlink
    have hneg : ¬ ((P : Int) < 0 ∨ (R : Int) < 0) := by omega
    have htr1 := htr
    simp only [searchTrace, hneg, if_false, Int.toNat_ofNat, mkNeed_eq hmax halloc,
      initState_abs P R available allocation, copyInto_of_length hshape.1] at htr1
    have hne := (loop_eq_lastState (needMatrix P R max allocation) allocation P R (P + 1)
      (absState P R allocation available [] false)).2 tr htr1
    have hreach := loopTrace_reached max halloc hshape.1 (P + 1) [] false
      (good_nil P R max allocation available) tr htr1
    refine ⟨tr, absState P R allocation available o false, rfl, ?_, hsearch, ?_, ?_⟩
    · rw [getLast?_eq_lastState _ tr hne, ← hlink]
    · intro s hs x hx
      obtain ⟨o1, f1, hg1, rfl⟩ := hreach s hs
      exact workAfter_nonneg hshape.1 hav hnn hsum hg1.1 hg1.2.1 x hx
    · apply eq_map_range_of_getD (length_workAfter R allocation o available hshape.1)
      intro j hj
      rw [getD_workAfter allocation hj _ _ (workInRange_of_nonneg hnn hsum hgood.1 hgood.2.1)]
      have hperm := good_perm hgood hall
      unfold allocSum
      rw [(List.Perm.map (fun p => cell allocation p j) hperm).sum_eq]

/-- Witness of the amended C8 on the reference snapshot. -/
theorem isSafe_conservation_witness :
    ∃ tr st, searchTrace ((5 : Nat) : Int) ((3 : Nat) : Int) [3, 3, 2] refMax refAllocation
        = .ok tr ∧
      tr.getLast? = some st ∧
      search ((5 : Nat) : Int) ((3 : Nat) : Int) [3, 3, 2] refMax refAllocation = .ok st ∧
      (∀ s ∈ tr, ∀ x ∈ s.work, 0 ≤ x) ∧
      st.work = (List.range 3).map (fun j =>
        (([3, 3, 2] : List Int)[j]?).getD 0
          + ((List.range 5).map (fun i => cell refAllocation i j)).sum) :=
  isSafe_conservation 5 3 [3, 3, 2] refMax refAllocation [1, 3, 4, 0, 2]
    (by decide) (by decide) (by decide) (by decide) (by decide)

/-- C9 (no partial result on Unsafe). Whenever `isSafe` returns the verdict `false`, the
returned order is `nil`. -/
theorem isSafe_unsafe_no_order (processes resources : Int) (available : List Int)
    (max allocation : List (List Int)) (o : Option (List Nat))
    (h : isSafe processes resources available max allocation = .ok (false, o)) : o = none := by
  unfold isSafe at h
  split at h
  · exact Except.noConfusion h
  · split at h
    · exact Except.noConfusion h
    · injection h with h1
      exact absurd (congrArg Prod.fst h1) (by simp)
    · injection h with h1
      exact (congrArg Prod.snd h1).symm

/-- Witness of C9: the search has put `[1, 3, 4]` into its order when it stalls, and the
returned order is `nil`. -/
theorem isSafe_unsafe_no_order_witness :
    (search 5 3 [1, 2, 2] refMax refAllocation).map State.order = .ok [1, 3, 4] ∧
      isSafe 5 3 [1, 2, 2] refMax refAllocation = .ok (false, none) ∧
      (none : Option (List Nat)) = none :=
  ⟨by decide, by decide,
    isSafe_unsafe_no_order 5 3 [1, 2, 2] refMax refAllocation none (by decide)⟩

/-- C10 (order length characterises safety). For a snapshot with `P` rows of `R` entries in
`max` and `allocation`, `isSafe` returns, and the returned order has length `P` if and only
if the verdict is `true`. -/
theorem isSafe_length_iff (P R : Nat) (available : List Int) (max allocation : List (List Int))
    (hmax : max.length = P) (hmaxRows : ∀ row ∈ max, row.length = R)
    (halloc : allocation.length = P) (hallocRows : ∀ row ∈ allocation, row.length = R) :
    ∃ v o, isSafe (P : Int) (R : Int) available max allocation = .ok (v, o) ∧
      (sliceLen o = P ↔ v = true) := by
  obtain ⟨o, hgood, _, _, hres⟩ :=
    isSafe_returns available (inBounds_of_rows hmax hmaxRows) (inBounds_of_rows halloc hallocRows)
  by_cases hall : ∀ i < P, i ∈ o
  · refine ⟨true, some o, by rw [hres, verdictOf_true hall], ?_⟩
    have hlen := (good_perm hgood hall).length_eq
    simp only [List.length_range] at hlen
    simp [sliceLen, hlen]
  · have hv : verdictOf P o = (false, none) := by
      have h1 : ¬ ((verdictOf P o).1 = true) := fun h => hall (verdictOf_fst.1 h)
      unfold verdictOf at h1 ⊢
      split
      · rename_i hc; rw [if_pos hc] at h1; exact absurd rfl h1
      · rfl
    refine ⟨false, none, by rw [hres, hv], ?_⟩
    have hP : P ≠ 0 := by
      intro h0
      apply hall
      intro i hi
      omega
    simp only [sliceLen, Bool.false_eq_true, iff_false]
    omega

/-- Witness of C10 on an unsafe snapshot: the verdict is `false` and the length is not `5`. -/
theorem isSafe_length_iff_witness :
    ∃ v o, isSafe ((5 : Nat) : Int) ((3 : Nat) : Int) [0, 0, 0] refMax refAllocation
      = .ok (v, o) ∧ (sliceLen o = 5 ↔ v = true) :=
  isSafe_length_iff 5 3 [0, 0, 0] refMax refAllocation
    (by decide) (by decide) (by decide) (by decide)

/-! ## Work never decreases -/

theorem absVisit_append (R : Nat) (max allocation : List (List Int)) (w0 : List Int) (i : Nat)
    (o : List Nat) (f : Bool) :
    ∃ t, (absVisit R max allocation w0 i (o, f)).1 = o ++ t := by
  unfold absVisit
  split
  · exact ⟨[i], rfl⟩
  · exact ⟨[], by simp⟩

theorem chain_append_lastState {r : State → State → Prop} :
    ∀ (l1 l2 : List State) (a : State), List.Chain r a l1 → List.Chain r (lastState a l1) l2 →
      List.Chain r a (l1 ++ l2) := by
  intro l1
  induction l1 with
  | nil => intro l2 a _ h; exact h
  | cons s tr ih =>
    intro l2 a h1 h2
    rw [List.chain_cons] at h1
    rw [List.cons_append, List.chain_cons]
    exact ⟨h1.1, ih l2 s h1.2 h2⟩

theorem scanTrace_chain {P R : Nat} (max : List (List Int)) {allocation : List (List Int)}
    (halloc : InBounds P R allocation) {w0 : List Int} (hw0 : w0.length = R) :
    ∀ (is : List Nat), (∀ i ∈ is, i < P) → ∀ (o : List Nat) (f : Bool),
      Good P R max allocation w0 o →
      ∃ tr, scanTrace (needMatrix P R max allocation) allocation R is
          (absState P R allocation w0 o f) = .ok tr ∧
        List.Chain (Extends P R max allocation w0) (absState P R allocation w0 o f) tr := by
  intro is
  induction is with
  | nil => intro _ o f _; exact ⟨[], rfl, List.Chain.nil⟩
  | cons i is ih =>
    intro his o f hgood
    have hi : i < P := his i (List.mem_cons_self _ _)
    have hv := visit_abs max halloc hw0 hi o f
    have hg1 := absVisit_good hi f hgood
    obtain ⟨t, ht⟩ := absVisit_append R max allocation w0 i o f
    obtain ⟨tr, htr, hch⟩ := ih (fun k hk => his k (List.mem_cons_of_mem _ hk))
      (absVisit R max allocation w0 i (o, f)).1 (absVisit R max allocation w0 i (o, f)).2 hg1
    refine ⟨absState P R allocation w0 (absVisit R max allocation w0 i (o, f)).1
      (absVisit R max allocation w0 i (o, f)).2 :: tr, by simp only [scanTrace, hv, htr], ?_⟩
    rw [List.chain_cons]
    refine ⟨⟨o, t, f, (absVisit R max allocation w0 i (o, f)).2, ?_, rfl, ?_⟩, hch⟩
    · rw [← ht]; exact hg1
    · rw [ht]

theorem loopTrace_chain {P R : Nat} (max : List (List Int)) {allocation : List (List Int)}
    (halloc : InBounds P R allocation) {w0 : List Int} (hw0 : w0.length = R) :
    ∀ (fuel : Nat) (o : List Nat) (f : Bool), Good P R max allocation w0 o →
      ∀ tr, loopTrace (needMatrix P R max allocation) allocation P R fuel
          (absState P R allocation w0 o f) = .ok tr →
        List.Chain (Extends P R max allocation w0) (absState P R allocation w0 o f) tr := by
  intro fuel
  induction fuel with
  | zero => intro o f _ tr h; exact Except.noConfusion h
  | succ n ih =>
    intro o f hgood tr h
    have hrange : ∀ i ∈ List.range P, i < P := fun _ hi => List.mem_range.1 hi
    have hst : ({ absState P R allocation w0 o f with found := false } : State)
        = absState P R allocation w0 o false := rfl
    obtain ⟨tr1, htr1, hch1⟩ := scanTrace_chain max halloc hw0 (List.range P) hrange o false hgood
    have hlast : lastState (absState P R allocation w0 o false) tr1
        = absState P R allocation w0
            (absScan R max allocation w0 (List.range P) (o, false)).1
            (absScan R max allocation w0 (List.range P) (o, false)).2 := by
      have h1 := scan_eq_lastState (needMatrix P R max allocation) allocation R (List.range P)
        (absState P R allocation w0 o false)
      rw [scan_abs max halloc hw0 (List.range P) hrange (o, false), htr1] at h1
      simp only [Except.map] at h1
      injection h1 with h1
      exact h1.symm
    have hg1 := absScan_good (List.range P) hrange o false hgood
    have h0 : Extends P R max allocation w0 (absState P R allocation w0 o f)
        (absState P R allocation w0 o false) :=
      ⟨o, [], f, false, by simpa using hgood, rfl, by simp⟩
    simp only [loopTrace, hst, htr1] at h
    split at h
    · split at h
      · exact Except.noConfusion h
      · rename_i tr2 htr2
        injection h with h
        rw [← h, List.chain_cons]
        refine ⟨h0, chain_append_lastState tr1 tr2 _ hch1 ?_⟩
        rw [hlast] at htr2 ⊢
        exact ih _ _ hg1 tr2 htr2
    · injection h with h
      rw [← h, List.chain_cons]
      exact ⟨h0, hch1⟩

theorem workLe_of_extends {P R : Nat} {max allocation : List (List Int)} {w0 : List Int}
    (hnn : ∀ i < P, ∀ j < R, 0 ≤ cell allocation i j) (hsum : SumInRange P R w0 allocation)
    (a b : State) (h : Extends P R max allocation w0 a b) : WorkLe R a b := by
  obtain ⟨o, t, f, g, hgood, rfl, rfl⟩ := h
  intro j hj
  have hnd : o.Nodup := (List.nodup_append.1 hgood.1).1
  have ho : ∀ i ∈ o, i < P := fun i hi => hgood.2.1 i (List.mem_append_left _ hi)
  have ht : ∀ i ∈ t, i < P := fun i hi => hgood.2.1 i (List.mem_append_right _ hi)
  simp only [absState]
  rw [getD_workAfter allocation hj _ _ (workInRange_of_nonneg hnn hsum hnd ho),
    getD_workAfter allocation hj _ _ (workInRange_of_nonneg hnn hsum hgood.1 hgood.2.1),
    allocSum_append]
  have h3 := allocSum_nonneg hnn ht hj
  omega

theorem searchTrace_loopTrace {P R : Nat} (available : List Int)
    {max allocation : List (List Int)}
    (hmax : InBounds P R max) (halloc : InBounds P R allocation) :
    searchTrace (P : Int) (R : Int) available max allocation
      = loopTrace (needMatrix P R max allocation) allocation P R (P + 1)
          (absState P R allocation (copyInto R available) [] false) := by
  have hneg : ¬ ((P : Int) < 0 ∨ (R : Int) < 0) := by omega
  simp only [searchTrace, hneg, if_false, Int.toNat_ofNat, mkNeed_eq hmax halloc,
    initState_abs P R available allocation]

theorem loopTrace_head (need allocation : List (List Int)) (P R : Nat) :
    ∀ (fuel : Nat) (st : State) (tr : List State),
      loopTrace need allocation P R fuel st = .ok tr →
      ∃ tr1, tr = { st with found := false } :: tr1 := by
  intro fuel
  cases fuel with
  | zero => intro st tr h; exact Except.noConfusion h
  | succ n =>
    intro st tr h
    simp only [loopTrace] at h
    split at h
    · exact Except.noConfusion h
    · split at h
      · split at h
        · exact Except.noConfusion h
        · injection h with h
          exact ⟨_, h.symm⟩
      · injection h with h
        exact ⟨_, h.symm⟩

/-- Inside the bounds the trace of the search exists and starts with the initial locals. -/
theorem searchTrace_returns {P R : Nat} (available : List Int)
    {max allocation : List (List Int)}
    (hmax : InBounds P R max) (halloc : InBounds P R allocation) :
    ∃ tr, searchTrace (P : Int) (R : Int) available max allocation
      = .ok (initState P R available :: tr) := by
  obtain ⟨o, _, _, hsearch, _⟩ := isSafe_returns available hmax halloc
  have hlink := search_eq_lastState (P : Int) (R : Int) available max allocation
  rw [hsearch] at hlink
  cases htr : searchTrace (P : Int) (R : Int) available max allocation with
  | error e => rw [htr] at hlink; exact Except.noConfusion hlink
  | ok tr =>
    have htr1 := htr
    rw [searchTrace_loopTrace available hmax halloc] at htr1
    obtain ⟨tr1, h1⟩ := loopTrace_head _ _ _ _ _ _ _ htr1
    refine ⟨tr1, ?_⟩
    rw [h1, initState_abs P R available allocation]
    rfl

/-- C11, as stated, fails: with `available = [MaxInt64]` and non-negative allocations, the
release of process 0 takes `work` from `MaxInt64` to `MinInt64`, below `available`. -/
theorem isSafe_work_monotone_counterexample :
    Shaped 2 1 [Go.maxInt64] [[5], [0]] [[1], [0]] ∧
      (∀ i < 2, ∀ j < 1, 0 ≤ cell [[1], [0]] i j) ∧
      (searchTrace 2 1 [Go.maxInt64] [[5], [0]] [[1], [0]]).map
          (fun tr => tr.map State.work)
        = .ok [[Go.maxInt64], [Go.minInt64], [Go.minInt64], [Go.minInt64], [Go.minInt64],
            [Go.minInt64]] ∧
      Go.minInt64 < Go.maxInt64 := by
  decide

/-- C11 (amended: monotonicity of work inside the 64-bit range). For a snapshot with `P` rows
of `R` entries, `available` of length `R`, non-negative allocations and `available[j]` plus
all allocations of resource `j` representable, whatever the verdict: the trace of the
search starts from `work = available`, every state has `work` component-wise `>=` the state
before it, and `work[j] >= available[j]` holds in every state. -/
theorem isSafe_work_monotone (P R : Nat) (available : List Int)
    (max allocation : List (List Int))
    (hshape : Shaped P R available max allocation)
    (hnn : ∀ i < P, ∀ j < R, 0 ≤ cell allocation i j)
    (hsum : SumInRange P R available allocation) :
    ∃ tr, searchTrace (P : Int) (R : Int) available max allocation
        = .ok (initState P R available :: tr) ∧
      (initState P R available).work = available ∧
      List.Chain (WorkLe R) (initState P R available) tr ∧
      ∀ s ∈ initState P R available :: tr, ∀ j < R,
        (available[j]?).getD 0 ≤ (s.work[j]?).getD 0 := by
  have hmax := hshape.inBounds_max
  have halloc := hshape.inBounds_allocation
  obtain ⟨tr, htr⟩ := searchTrace_returns available hmax halloc
  have htr1 := htr
  rw [searchTrace_loopTrace available hmax halloc, copyInto_of_length hshape.1] at htr1
  have hinit : initState P R available = absState P R allocation available [] false := by
    rw [initState_abs P R available allocation, copyInto_of_length hshape.1]
  have hchain := loopTrace_chain max halloc hshape.1 (P + 1) [] false
    (good_nil P R max allocation available) _ htr1
  have hreach := loopTrace_reached max halloc hshape.1 (P + 1) [] false
    (good_nil P R max allocation available) _ htr1
  rw [List.chain_cons] at hchain
  refine ⟨tr, htr, ?_, ?_, ?_⟩
  · simp [initState, copyInto_of_length hshape.1]
  · rw [hinit]
    rw [hinit] at hchain
    exact List.Chain.imp (workLe_of_extends hnn hsum) hchain.2
  · intro s hs j hj
    obtain ⟨o, f, hgood, rfl⟩ := hreach s hs
    simp only [absState]
    rw [getD_workAfter allocation hj _ _
      (workInRange_of_nonneg hnn hsum hgood.1 hgood.2.1)]
    have h3 := allocSum_nonneg hnn hgood.2.1 hj
    omega

/-- Witness of the amended C11 on an unsafe snapshot (the search stalls after `[1, 3, 4]`). -/
theorem isSafe_work_monotone_witness :
    ∃ tr, searchTrace ((5 : Nat) : Int) ((3 : Nat) : Int) [1, 2, 2] refMax refAllocation
        = .ok (initState 5 3 [1, 2, 2] :: tr) ∧
      (initState 5 3 [1, 2, 2]).work = [1, 2, 2] ∧
      List.Chain (WorkLe 3) (initState 5 3 [1, 2, 2]) tr ∧
      ∀ s ∈ initState 5 3 [1, 2, 2] :: tr, ∀ j < 3,
        (([1, 2, 2] : List Int)[j]?).getD 0 ≤ (s.work[j]?).getD 0 :=
  isSafe_work_monotone 5 3 [1, 2, 2] refMax refAllocation (by decide) (by decide) (by decide)

/-- C12, as stated, fails: a snapshot with a negative entry and `allocation > max`, and one
whose `available` and rows are longer than `R`, both get a verdict instead of an error. -/
theorem isSafe_malformed_counterexample :
    isSafe 1 1 [-1] [[0]] [[2]] = .ok (true, some [0]) ∧
      isSafe 1 1 [5, 7] [[0, 9]] [[0, 3]] = .ok (true, some [0]) := by
  decide

/-- C12 (amended). `isSafe` does not validate the snapshot: whenever `max` and `allocation`
have `P` rows of `R` entries it returns a verdict computed from the data as given, whatever
the signs of the entries, whether or not `allocation[i][j] <= max[i][j]`, and whatever the
length of `available`. -/
theorem isSafe_no_validation (P R : Nat) (available : List Int)
    (max allocation : List (List Int))
    (hmax : max.length = P) (hmaxRows : ∀ row ∈ max, row.length = R)
    (halloc : allocation.length = P) (hallocRows : ∀ row ∈ allocation, row.length = R) :
    ∃ o, isSafe (P : Int) (R : Int) available max allocation = .ok (verdictOf P o) ∧
      Good P R max allocation (copyInto R available) o ∧
      Stuck P R max allocation (copyInto R available) o := by
  obtain ⟨o, hgood, hstuck, _, hres⟩ :=
    isSafe_returns available (inBounds_of_rows hmax hmaxRows) (inBounds_of_rows halloc hallocRows)
  exact ⟨o, hres, hgood, hstuck⟩

/-- Witness of the amended C12 on a snapshot with negative entries and `allocation > max`. -/
theorem isSafe_no_validation_witness :
    ∃ o, isSafe ((2 : Nat) : Int) ((1 : Nat) : Int) [-1, 4] [[0], [-3]] [[2], [-5]]
        = .ok (verdictOf 2 o) ∧
      Good 2 1 [[0], [-3]] [[2], [-5]] (copyInto 1 [-1, 4]) o ∧
      Stuck 2 1 [[0], [-3]] [[2], [-5]] (copyInto 1 [-1, 4]) o :=
  isSafe_no_validation 2 1 [-1, 4] [[0], [-3]] [[2], [-5]]
    (by decide) (by decide) (by decide) (by decide)

/-! ## Passes of the outer loop -/

theorem absScan_append (R : Nat) (max allocation : List (List Int)) (w0 : List Int) :
    ∀ (is : List Nat) (o : List Nat) (f : Bool),
      ∃ t, (absScan R max allocation w0 is (o, f)).1 = o ++ t := by
  intro is
  induction is with
  | nil => intro o f; exact ⟨[], by simp [absScan]⟩
  | cons i is ih =>
    intro o f
    obtain ⟨t1, ht1⟩ := absVisit_append R max allocation w0 i o f
    obtain ⟨t2, ht2⟩ := ih (absVisit R max allocation w0 i (o, f)).1
      (absVisit R max allocation w0 i (o, f)).2
    refine ⟨t1 ++ t2, ?_⟩
    simp only [absScan]
    rw [ht2, ht1, List.append_assoc]

theorem progress_abs {P R : Nat} {max allocation : List (List Int)} {w0 : List Int}
    {o t : List Nat} (hgood : Good P R max allocation w0 (o ++ t)) (hlen : o.length < (o ++ t).length)
    (f g : Bool) :
    Progress (absState P R allocation w0 o f) (absState P R allocation w0 (o ++ t) g) := by
  unfold Progress
  intro _
  cases t with
  | nil => simp at hlen
  | cons i t =>
    have hi : i < P := hgood.2.1 i (by simp)
    have hnd := hgood.1
    have hio : i ∉ o := by
      intro h
      have := (List.nodup_append.1 hnd).2.2
      exact this h (List.mem_cons_self _ _)
    refine ⟨i, ?_, ?_⟩
    · simp [absState, List.getElem?_map, List.getElem?_range hi, hio]
    · simp [absState, List.getElem?_map, List.getElem?_range hi]

theorem passStates_abs {P R : Nat} (max : List (List Int)) {allocation : List (List Int)}
    (halloc : InBounds P R allocation) {w0 : List Int} (hw0 : w0.length = R) :
    ∀ (fuel : Nat) (o : List Nat) (f : Bool), Good P R max allocation w0 o →
      P < fuel + o.length →
      ∃ l, passStates (needMatrix P R max allocation) allocation P R fuel
          (absState P R allocation w0 o f) = .ok l ∧
        l ≠ [] ∧ l.length + o.length ≤ P + 1 ∧
        (l.filter (fun s => s.found)).length + o.length ≤ P ∧
        List.Chain Progress (absState P R allocation w0 o f) l ∧
        loop (needMatrix P R max allocation) allocation P R fuel
          (absState P R allocation w0 o f)
          = .ok (lastState (absState P R allocation w0 o f) l) := by
  intro fuel
  induction fuel with
  | zero =>
    intro o f h hlt
    have := good_length_le h
    omega
  | succ n ih =>
    intro o f hgood hlt
    have hrange : ∀ i ∈ List.range P, i < P := fun _ hi => List.mem_range.1 hi
    have hst : ({ absState P R allocation w0 o f with found := false } : State)
        = absState P R allocation w0 o false := rfl
    have hs := scan_abs max halloc hw0 (List.range P) hrange (o, false)
    have hg1 := absScan_good (List.range P) hrange o false hgood
    have hle := good_length_le hgood
    obtain ⟨t, ht⟩ := absScan_append R max allocation w0 (List.range P) o false
    simp only [passStates, loop, hst, hs]
    rcases absScan_cases R max allocation w0 (List.range P) o false with ⟨heq, _⟩ | ⟨hf, hlen⟩
    · rw [heq]
      refine ⟨[absState P R allocation w0 o false], by simp [absState], by simp, ?_, ?_, ?_, ?_⟩
      · simp only [List.length_singleton]; omega
      · simp [absState]; exact hle
      · rw [List.chain_cons]
        refine ⟨?_, List.Chain.nil⟩
        unfold Progress
        intro h
        simp [absState] at h
      · simp [absState, lastState]
    · obtain ⟨l, hl, _, hl2, hl3, hl4, hl5⟩ :=
        ih (absScan R max allocation w0 (List.range P) (o, false)).1
          (absScan R max allocation w0 (List.range P) (o, false)).2 hg1 (by omega)
      have hfound : (absState P R allocation w0
          (absScan R max allocation w0 (List.range P) (o, false)).1
          (absScan R max allocation w0 (List.range P) (o, false)).2).found = true := hf
      refine ⟨absState P R allocation w0
          (absScan R max allocation w0 (List.range P) (o, false)).1
          (absScan R max allocation w0 (List.range P) (o, false)).2 :: l, ?_, by simp, ?_, ?_, ?_, ?_⟩
      · simp only [hfound, if_true, hl]
      · simp only [List.length_cons]; omega
      · simp only [List.filter_cons, hfound, if_true, List.length_cons]; omega
      · rw [List.chain_cons]
        refine ⟨?_, hl4⟩
        have hg2 := hg1
        rw [ht] at hg2 hlen ⊢
        exact progress_abs hg2 hlen f _
      · simp only [hfound, if_true, hl5, lastState]

/-- C13 (termination). For a snapshot with `P` rows of `R` entries and any budget of at least
`P + 1` passes: the outer loop stops after at least one and at most `P + 1` passes, at most
`P` of them end with `found` set, every pass that ends with `found` set has finished a
process that was unfinished before it, and the search returns the state after the last
pass. -/
theorem isSafe_terminates (P R : Nat) (available : List Int) (max allocation : List (List Int))
    (k : Nat)
    (hmax : max.length = P) (hmaxRows : ∀ row ∈ max, row.length = R)
    (halloc : allocation.length = P) (hallocRows : ∀ row ∈ allocation, row.length = R) :
    ∃ l, searchPasses (P + 1 + k) (P : Int) (R : Int) available max allocation = .ok l ∧
      1 ≤ l.length ∧ l.length ≤ P + 1 ∧
      (l.filter (fun s => s.found)).length ≤ P ∧
      List.Chain Progress (initState P R available) l ∧
      searchFuel (P + 1 + k) (P : Int) (R : Int) available max allocation
        = .ok (lastState (initState P R available) l) ∧
      search (P : Int) (R : Int) available max allocation
        = .ok (lastState (initState P R available) l) := by
  have hm := inBounds_of_rows hmax hmaxRows
  have ha := inBounds_of_rows halloc hallocRows
  obtain ⟨l, h1, h2, h3, h4, h5, h6⟩ :=
    passStates_abs max ha (length_copyInto R available) (P + 1 + k) [] false
      (good_nil P R max allocation (copyInto R available)) (by simp; omega)
  have hneg : ¬ ((P : Int) < 0 ∨ (R : Int) < 0) := by omega
  have hfuel : searchFuel (P + 1 + k) (P : Int) (R : Int) available max allocation
      = .ok (lastState (initState P R available) l) := by
    simp only [searchFuel, hneg, if_false, Int.toNat_ofNat, mkNeed_eq hm ha,
      initState_abs P R available allocation, h6]
  refine ⟨l, ?_, ?_, ?_, ?_, ?_, hfuel, ?_⟩
  · simp only [searchPasses, hneg, if_false, Int.toNat_ofNat, mkNeed_eq hm ha,
      initState_abs P R available allocation, h1]
  · cases l with
    | nil => exact absurd rfl h2
    | cons s l => simp
  · simpa using h3
  · simpa using h4
  · rw [initState_abs P R available allocation]; exact h5
  · rw [← searchFuel_irrelevant available hm ha k]; exact hfuel

/-- Witness of C13 on the reference snapshot with the budget `P + 1 + 4`. -/
theorem isSafe_terminates_witness :
    ∃ l, searchPasses (5 + 1 + 4) ((5 : Nat) : Int) ((3 : Nat) : Int) [3, 3, 2]
        refMax refAllocation = .ok l ∧
      1 ≤ l.length ∧ l.length ≤ 5 + 1 ∧
      (l.filter (fun s => s.found)).length ≤ 5 ∧
      List.Chain Progress (initState 5 3 [3, 3, 2]) l ∧
      searchFuel (5 + 1 + 4) ((5 : Nat) : Int) ((3 : Nat) : Int) [3, 3, 2] refMax refAllocation
        = .ok (lastState (initState 5 3 [3, 3, 2]) l) ∧
      search ((5 : Nat) : Int) ((3 : Nat) : Int) [3, 3, 2] refMax refAllocation
        = .ok (lastState (initState 5 3 [3, 3, 2]) l) :=
  isSafe_terminates 5 3 [3, 3, 2] refMax refAllocation 4
    (by decide) (by decide) (by decide) (by decide)



theorem workInRange_of_append {R : Nat} {allocation : List (List Int)} {work : List Int}
    {o t : List Nat} (h : WorkInRange R allocation work (o ++ t)) :
    WorkInRange R allocation work o := by
  intro k hk j hj
  have := h k (by simp; omega) j hj
  rw [List.take_append_of_le_length hk] at this
  exact this

/-- C15, as stated, fails: every need fits `available` plus what the lower-indexed processes
hold, but the release of process 0 wraps `work` from `MaxInt64` to `MinInt64` and process 1
is refused. -/
theorem isSafe_within_pass_counterexample :
    Shaped 2 1 [Go.maxInt64] [[1], [7]] [[1], [0]] ∧
      (∀ i < 2, ∀ j < 1, cell [[1], [7]] i j - cell [[1], [0]] i j
        ≤ (([Go.maxInt64] : List Int)[j]?).getD 0
          + ((List.range i).map (fun k => cell [[1], [0]] k j)).sum) ∧
      isSafe 2 1 [Go.maxInt64] [[1], [7]] [[1], [0]] = .ok (false, none) := by
  decide

/-- C15 (amended: within-pass visibility inside the 64-bit range). For a snapshot with `P`
rows of `R` entries in which `need[i][j] <= available[j] + sum over k < i of
allocation[k][j]` for every `i` and `j`, every `need[i][j]` is representable and releasing
the processes in ascending order never takes `work` out of the 64-bit range, `isSafe`
returns `(true, [0, 1, ..., P-1])`. -/
theorem isSafe_within_pass (P R : Nat) (available : List Int) (max allocation : List (List Int))
    (hshape : Shaped P R available max allocation)
    (hfit : ∀ i < P, ∀ j < R, cell max i j - cell allocation i j
      ≤ (available[j]?).getD 0 + ((List.range i).map (fun k => cell allocation k j)).sum)
    (hneed : NeedInRange P R max allocation)
    (hwork : WorkInRange R allocation available (List.range P)) :
    isSafe (P : Int) (R : Int) available max allocation = .ok (true, some (List.range P)) := by
  apply isSafe_ascending available hshape.inBounds_max hshape.inBounds_allocation
  intro i hi
  rw [fitsRow_iff]
  intro j hj
  have hsplit : List.range P = List.range i ++ (List.range (P - i)).map (i + ·) := by
    rw [← List.range_add]
    congr 1
    omega
  rw [hsplit] at hwork
  rw [copyInto_of_length hshape.1,
    getD_workAfter allocation hj _ _ (workInRange_of_append hwork),
    wrap64_of_inInt64 (hneed i hi j hj)]
  exact hfit i hi j hj

/-- Witness of the amended C15: process 1 needs what process 0 releases in the same pass. -/
theorem isSafe_within_pass_witness :
    isSafe ((2 : Nat) : Int) ((1 : Nat) : Int) [1] [[3], [3]] [[2], [0]]
      = .ok (true, some (List.range 2)) :=
  isSafe_within_pass 2 1 [1] [[3], [3]] [[2], [0]] (by decide) (by decide) (by decide)
    (by decide)

/-! ## The first process of the order -/

theorem absScan_first (R : Nat) (max allocation : List (List Int)) (w0 : List Int) :
    ∀ (n k : Nat) (f : Bool),
      ((absScan R max allocation w0 (List.range' k n) ([], f)).1 = [] ∧
        ∀ i, k ≤ i → i < k + n → fitsRow R max allocation w0 i = false) ∨
      ∃ i0 t, (absScan R max allocation w0 (List.range' k n) ([], f)).1 = i0 :: t ∧
        k ≤ i0 ∧ i0 < k + n ∧ fitsRow R max allocation w0 i0 = true ∧
        ∀ i, k ≤ i → i < i0 → fitsRow R max allocation w0 i = false := by
  intro n
  induction n with
  | zero => intro k f; left; exact ⟨rfl, fun i h1 h2 => by omega⟩
  | succ n ih =>
    intro k f
    simp only [List.range', absScan]
    cases hfit : fitsRow R max allocation w0 k with
    | true =>
      right
      have hv : absVisit R max allocation w0 k ([], f) = ([k], true) := by
        simp [absVisit, workAfter, hfit]
      obtain ⟨t, ht⟩ := absScan_append R max allocation w0 (List.range' (k + 1) n) [k] true
      refine ⟨k, t, ?_, Nat.le_refl k, by omega, hfit, fun i h1 h2 => by omega⟩
      rw [hv, ht]; rfl
    | false =>
      have hv : absVisit R max allocation w0 k ([], f) = ([], f) := by
        simp [absVisit, workAfter, hfit]
      rw [hv]
      have hk : ∀ i, k ≤ i → i < k + 1 → fitsRow R max allocation w0 i = false := by
        intro i h1 h2
        have : i = k := by omega
        rw [this]; exact hfit
      rcases ih (k + 1) f with ⟨h1, h2⟩ | ⟨i0, t, h1, h2, h3, h4, h5⟩
      · left
        refine ⟨h1, ?_⟩
        intro i hi1 hi2
        by_cases hik : i = k
        · rw [hik]; exact hfit
        · exact h2 i (by omega) (by omega)
      · right
        refine ⟨i0, t, h1, by omega, by omega, h4, ?_⟩
        intro i hi1 hi2
        by_cases hik : i = k
        · rw [hik]; exact hfit
        · exact h5 i (by omega) hi2

theorem absLoop_append (P R : Nat) (max allocation : List (List Int)) (w0 : List Int) :
    ∀ (fuel : Nat) (o o1 : List Nat), absLoop P R max allocation w0 fuel o = some o1 →
      ∃ t, o1 = o ++ t := by
  intro fuel
  induction fuel with
  | zero => intro o o1 h; simp [absLoop] at h
  | succ n ih =>
    intro o o1 h
    obtain ⟨t, ht⟩ := absScan_append R max allocation w0 (List.range P) o false
    simp only [absLoop] at h
    split at h
    · obtain ⟨t2, ht2⟩ := ih _ _ h
      exact ⟨t ++ t2, by rw [ht2, ht, List.append_assoc]⟩
    · injection h with h
      exact ⟨t, by rw [← h, ht]⟩

/-- C16, as stated, fails: with `max = MaxInt64` and `allocation = -1` the stored need of
process 0 has wrapped to `MinInt64`, so `isSafe` returns the order `[0]`, although the exact
need `2^63` of process 0 is not `<= available`. -/
theorem isSafe_first_smallest_counterexample :
    Shaped 1 1 [0] [[Go.maxInt64]] [[-1]] ∧
      isSafe 1 1 [0] [[Go.maxInt64]] [[-1]] = .ok (true, some [0]) ∧
      specFits 1 [[Go.maxInt64]] [[-1]] [0] 0 = false ∧
      cell [[Go.maxInt64]] 0 0 - cell [[-1]] 0 0 = 9223372036854775808 := by
  decide

/-- C16 (amended: ascending tie-break inside the 64-bit range). For a snapshot with `P > 0`
rows of `R` entries in which every `need[i][j]` is representable and on which `isSafe`
returns `(true, order)`: `order[0]` is the smallest process index whose need is
`<= available` component-wise. -/
theorem isSafe_first_smallest (P R : Nat) (available : List Int)
    (max allocation : List (List Int)) (order : List Nat)
    (hshape : Shaped P R available max allocation) (hP : 0 < P)
    (hneed : NeedInRange P R max allocation)
    (hsafe : isSafe (P : Int) (R : Int) available max allocation = .ok (true, some order)) :
    ∃ i0 t, order = i0 :: t ∧ i0 < P ∧ specFits R max allocation available i0 = true ∧
      ∀ i < i0, specFits R max allocation available i = false := by
  have habs := isSafe_abs available hshape.inBounds_max hshape.inBounds_allocation
  rw [hsafe, copyInto_of_length hshape.1] at habs
  cases hloop : absLoop P R max allocation available (P + 1) [] with
  | none => rw [hloop] at habs; exact Except.noConfusion habs
  | some o =>
    rw [hloop] at habs
    have hv : verdictOf P o = (true, some order) := by
      injection habs with habs
      exact habs.symm
    have hall : ∀ i < P, i ∈ o := verdictOf_fst.1 (by rw [hv])
    rw [verdictOf_true hall] at hv
    have ho : o = order := by
      have := congrArg Prod.snd hv
      simpa using this
    subst ho
    have hfirst := absScan_first R max allocation available P 0 false
    rw [← List.range_eq_range'] at hfirst
    simp only [absLoop] at hloop
    rcases hfirst with ⟨h1, _⟩ | ⟨i0, t, h1, _, h3, h4, h5⟩
    · exfalso
      rcases absScan_cases R max allocation available (List.range P) [] false with
        ⟨heq, _⟩ | ⟨_, hlen⟩
      · rw [heq] at hloop
        simp at hloop
        have := hall 0 hP
        rw [hloop] at this
        exact List.not_mem_nil _ this
      · rw [h1] at hlen
        simp at hlen
    · have hprefix : ∃ t2, o = (i0 :: t) ++ t2 := by
        split at hloop
        · rw [h1] at hloop
          exact absLoop_append P R max allocation available _ _ _ hloop
        · injection hloop with hloop
          exact ⟨[], by rw [← hloop, h1]; simp⟩
      obtain ⟨t2, ht2⟩ := hprefix
      have hi0 : i0 < P := by omega
      refine ⟨i0, t ++ t2, by rw [ht2]; rfl, hi0, ?_, ?_⟩
      · rw [← fitsRow_eq_specFits hneed available hi0]; exact h4
      · intro i hi
        rw [← fitsRow_eq_specFits hneed available (by omega : i < P)]
        exact h5 i (Nat.zero_le i) hi

/-- Witness of the amended C16 on the reference snapshot: process 1 is the first that
fits. -/
theorem isSafe_first_smallest_witness :
    ∃ i0 t, [1, 3, 4, 0, 2] = i0 :: t ∧ i0 < 5 ∧
      specFits 3 refMax refAllocation [3, 3, 2] i0 = true ∧
      ∀ i < i0, specFits 3 refMax refAllocation [3, 3, 2] i = false :=
  isSafe_first_smallest 5 3 [3, 3, 2] refMax refAllocation [1, 3, 4, 0, 2]
    (by decide) (by decide) (by decide) (by decide)

/-! ## Index safety and monotonicity in `available` -/

theorem inBounds_of_covers {P R : Nat} {m : List (List Int)} (h : Covers P R m) :
    InBounds P R m := by
  intro i hi j hj
  have hi1 : i < m.length := by have := h.1; omega
  have h2 := h.2 i hi
  rw [List.getElem?_eq_getElem hi1] at h2
  simp only [Option.getD_some] at h2
  exact ⟨m[i], List.getElem?_eq_getElem hi1, by omega⟩

/-- C19 (index safety). When `max` and `allocation` have at least `P` rows and each of their
first `P` rows has at least `R` entries, every checked index of `isSafe` is in bounds and a
verdict is returned, whatever the length of `available`: `work` starts as the first `R`
entries of `available` padded with zeros, and the result is that of the padded or truncated
vector. -/
theorem isSafe_index_safe (P R : Nat) (available : List Int) (max allocation : List (List Int))
    (hmax : Covers P R max) (halloc : Covers P R allocation) :
    (∃ v o, isSafe (P : Int) (R : Int) available max allocation = .ok (v, o)) ∧
      (initState P R available).work
        = available.take R ++ List.replicate (R - available.length) 0 ∧
      isSafe (P : Int) (R : Int) available max allocation
        = isSafe (P : Int) (R : Int)
            (available.take R ++ List.replicate (R - available.length) 0) max allocation := by
  have hm := inBounds_of_covers hmax
  have ha := inBounds_of_covers halloc
  refine ⟨?_, rfl, ?_⟩
  · obtain ⟨o, _, _, _, hres⟩ := isSafe_returns available hm ha
    exact ⟨(verdictOf P o).1, (verdictOf P o).2, hres⟩
  · have h1 : copyInto R (available.take R ++ List.replicate (R - available.length) 0)
        = copyInto R available :=
      copyInto_of_length (length_copyInto R available)
    rw [isSafe_abs available hm ha,
      isSafe_abs (available.take R ++ List.replicate (R - available.length) 0) hm ha, h1]

/-- Witness of C19: `available` too short, rows longer than `R`, more rows than `P`. -/
theorem isSafe_index_safe_witness :
    (∃ v o, isSafe ((2 : Nat) : Int) ((2 : Nat) : Int) [1] [[1, 0, 9], [2, 0], [7]]
        [[0, 0], [1, 0, 5], []] = .ok (v, o)) ∧
      (initState 2 2 [1]).work = List.take 2 [1] ++ List.replicate (2 - [1].length) 0 ∧
      isSafe ((2 : Nat) : Int) ((2 : Nat) : Int) [1] [[1, 0, 9], [2, 0], [7]]
          [[0, 0], [1, 0, 5], []]
        = isSafe ((2 : Nat) : Int) ((2 : Nat) : Int)
            (List.take 2 [1] ++ List.replicate (2 - [1].length) 0) [[1, 0, 9], [2, 0], [7]]
            [[0, 0], [1, 0, 5], []] :=
  isSafe_index_safe 2 2 [1] [[1, 0, 9], [2, 0], [7]] [[0, 0], [1, 0, 5], []]
    (by decide) (by decide)

theorem specReplayOk_mono (R : Nat) (max allocation : List (List Int)) :
    ∀ (σ : List Nat) (w1 w2 : List Int),
      (∀ j < R, (w1[j]?).getD 0 ≤ (w2[j]?).getD 0) →
      specReplayOk R max allocation w1 σ = true → specReplayOk R max allocation w2 σ = true := by
  intro σ
  induction σ with
  | nil => intro _ _ _ _; rfl
  | cons p ps ih =>
    intro w1 w2 hle h
    simp only [specReplayOk, Bool.and_eq_true] at h ⊢
    refine ⟨?_, ih _ _ ?_ h.2⟩
    · rw [specFits_iff] at h ⊢
      intro j hj
      have := h.1 j hj
      have := hle j hj
      omega
    · intro j hj
      rw [getD_specGrant allocation w1 p hj, getD_specGrant allocation w2 p hj]
      have := hle j hj
      omega

/-- C20, as stated, fails: the snapshot is safe with `available = [0]`, but with the larger
`available = [MaxInt64]` the release of process 0 wraps `work` to `MinInt64` and the verdict
is `false`. -/
theorem isSafe_monotone_available_counterexample :
    Shaped 2 1 [0] [[1], [0]] [[1], [0]] ∧ Shaped 2 1 [Go.maxInt64] [[1], [0]] [[1], [0]] ∧
      (∀ i < 2, ∀ j < 1, 0 ≤ cell [[1], [0]] i j) ∧
      (∀ j < 1, (([0] : List Int)[j]?).getD 0 ≤ (([Go.maxInt64] : List Int)[j]?).getD 0) ∧
      isSafe 2 1 [0] [[1], [0]] [[1], [0]] = .ok (true, some [0, 1]) ∧
      isSafe 2 1 [Go.maxInt64] [[1], [0]] [[1], [0]] = .ok (false, none) := by
  decide

/-- C20 (amended: the verdict is monotone in `available` inside the 64-bit range). For two
snapshots sharing `P`, `R`, `max` and `allocation` (dimensions `P x R`,
`allocation[i][j] >= 0`, every `need[i][j]` representable) with
`available[j] <= available2[j]` for every `j`, and with `available[j]` and
`available2[j]` plus all allocations of resource `j` representable: if `isSafe` returns
`true` for `available` then it returns `true` for `available2`. -/
theorem isSafe_monotone_available (P R : Nat) (available available2 : List Int)
    (max allocation : List (List Int)) (order : List Nat)
    (hshape : Shaped P R available max allocation)
    (hshape2 : Shaped P R available2 max allocation)
    (hnn : ∀ i < P, ∀ j < R, 0 ≤ cell allocation i j)
    (hneed : NeedInRange P R max allocation)
    (hsum : SumInRange P R available allocation)
    (hsum2 : SumInRange P R available2 allocation)
    (hle : ∀ j < R, (available[j]?).getD 0 ≤ (available2[j]?).getD 0)
    (hsafe : isSafe (P : Int) (R : Int) available max allocation = .ok (true, some order)) :
    ∃ order2, isSafe (P : Int) (R : Int) available2 max allocation
      = .ok (true, some order2) := by
  have hmax := hshape.inBounds_max
  have halloc := hshape.inBounds_allocation
  obtain ⟨o, hgood, _, _, hres⟩ := isSafe_returns available hmax halloc
  rw [copyInto_of_length hshape.1] at hgood
  rw [hres] at hsafe
  have hv : verdictOf P o = (true, some order) := by injection hsafe
  have hall : ∀ i < P, i ∈ o := verdictOf_fst.1 (by rw [hv])
  obtain ⟨o2, hgood2, hstuck2, _, hres2⟩ := isSafe_returns available2 hmax halloc
  rw [copyInto_of_length hshape2.1] at hgood2 hstuck2
  have hspec : specReplayOk R max allocation available o = true := by
    rw [← replayOk_eq_specReplayOk hneed o available hgood.2.1
      (workInRange_of_nonneg hnn hsum hgood.1 hgood.2.1)]
    exact hgood.2.2
  have hrep : replayOk R max allocation available2 o = true := by
    rw [replayOk_eq_specReplayOk hneed o available2 hgood.2.1
      (workInRange_of_nonneg hnn hsum2 hgood.1 hgood.2.1)]
    exact specReplayOk_mono R max allocation o available available2 hle hspec
  have hall2 : ∀ i < P, i ∈ o2 := by
    intro i hi
    exact stuck_complete hgood2 hstuck2 hnn hsum2 o []
      (fun _ h => absurd h (List.not_mem_nil _))
      (by simpa using hgood.1) hgood.2.1 (by simpa [workAfter] using hrep) i (hall i hi)
  exact ⟨o2, by rw [hres2, verdictOf_true hall2]⟩

/-- Witness of the amended C20: the reference snapshot with more of every resource
available. -/
theorem isSafe_monotone_available_witness :
    ∃ order2, isSafe ((5 : Nat) : Int) ((3 : Nat) : Int) [4, 3, 7] refMax refAllocation
      = .ok (true, some order2) :=
  isSafe_monotone_available 5 3 [3, 3, 2] [4, 3, 7] refMax refAllocation [1, 3, 4, 0, 2]
    (by decide) (by decide) (by decide) (by decide) (by decide) (by decide) (by decide)
    (by decide)

end Task3

namespace Task2

/-! ## The single-threaded filter -/

theorem singleLoop_eq (start endD : Date) :
    ∀ (dates : List Date) (acc : Nat × List Date),
      singleLoop start endD dates acc
        = (acc.1 + (dates.filter (fun d => isDateInRange d start endD)).length,
            acc.2 ++ dates.filter (fun d => isDateInRange d start endD)) := by
  intro dates
  induction dates with
  | nil => intro acc; simp [singleLoop]
  | cons d ds ih =>
    intro acc
    simp only [singleLoop]
    cases h : isDateInRange d start endD with
    | true =>
      simp only [if_true, ih, List.filter_cons, h, List.length_cons, List.append_assoc,
        List.singleton_append]
      congr 1
      omega
    | false =>
      simp only [Bool.false_eq_true, if_false, ih, List.filter_cons, h]

/-! ## Day numbers and the calendar order -/

theorem tmod_zero_iff (a b : Int) : Int.tmod a b = 0 ↔ a % b = 0 := by
  constructor
  · intro h
    exact Int.emod_eq_zero_of_dvd (Int.dvd_of_tmod_eq_zero h)
  · intro h
    exact Int.tmod_eq_zero_of_dvd (Int.dvd_of_emod_eq_zero h)

theorem daysInMonth_eq (year month : Int) :
    daysInMonth year month
      = if month = 2 then (if isLeap year = true then 29 else 28)
        else if month = 4 ∨ month = 6 ∨ month = 9 ∨ month = 11 then 30 else 31 := by
  simp only [daysInMonth, isLeap, tmod_zero_iff, Bool.and_eq_true, Bool.or_eq_true,
    decide_eq_true_eq, ne_eq]

theorem daysBeforeYear_succ (year : Int) :
    daysBeforeYear (year + 1) = daysBeforeYear year + 365 + (if isLeap year = true then 1 else 0) := by
  simp only [daysBeforeYear, isLeap, Bool.and_eq_true, Bool.or_eq_true, decide_eq_true_eq, ne_eq]
  split <;> omega

theorem daysBeforeYear_mono {y1 y2 : Int} (h : y1 ≤ y2) :
    daysBeforeYear y1 ≤ daysBeforeYear y2 := by
  simp only [daysBeforeYear]
  omega

/-- For a month in `1..12`: the days of the year before its first day (`s`) and up to its
last day (`e`), with `L` the extra day of a leap year. -/
theorem month_facts (year month : Int) (h1 : 1 ≤ month) (h12 : month ≤ 12) :
    ∃ L s e : Int, (L = 0 ∨ L = 1) ∧ (if isLeap year = true then (1 : Int) else 0) = L ∧
      daysBefore (month - 1)
        + (if (isLeap year && decide (2 ≤ month - 1)) = true then 1 else 0) = s ∧
      s + daysInMonth year month = e ∧
      ((month = 1 ∧ s = 0 ∧ e = 31) ∨ (month = 2 ∧ s = 31 ∧ e = 59 + L) ∨
       (month = 3 ∧ s = 59 + L ∧ e = 90 + L) ∨ (month = 4 ∧ s = 90 + L ∧ e = 120 + L) ∨
       (month = 5 ∧ s = 120 + L ∧ e = 151 + L) ∨ (month = 6 ∧ s = 151 + L ∧ e = 181 + L) ∨
       (month = 7 ∧ s = 181 + L ∧ e = 212 + L) ∨ (month = 8 ∧ s = 212 + L ∧ e = 243 + L) ∨
       (month = 9 ∧ s = 243 + L ∧ e = 273 + L) ∨ (month = 10 ∧ s = 273 + L ∧ e = 304 + L) ∨
       (month = 11 ∧ s = 304 + L ∧ e = 334 + L) ∨ (month = 12 ∧ s = 334 + L ∧ e = 365 + L)) := by
  refine ⟨_, _, _, ?_, rfl, rfl, rfl, ?_⟩
  · split <;> simp
  · rw [daysInMonth_eq]
    generalize isLeap year = leap
    interval_cases month <;> cases leap <;> simp [daysBefore]

theorem dayNumber_valid (d : Date) (hv : ValidDate d) :
    dayNumber d = daysBeforeYear d.Year + (daysBefore (d.Month - 1)
      + (if (isLeap d.Year && decide (2 ≤ d.Month - 1)) = true then 1 else 0)) + (d.Day - 1) := by
  have h1 := hv.1
  have h2 := hv.2.1
  have hq : (d.Month - 1) / 12 = 0 := by omega
  have hr : (d.Month - 1) % 12 = d.Month - 1 := by omega
  simp only [dayNumber, hq, hr, Int.add_zero]
  omega

/-- A calendar date lies inside its year. -/
theorem dayNumber_bounds (d : Date) (hv : ValidDate d) :
    daysBeforeYear d.Year ≤ dayNumber d ∧ dayNumber d < daysBeforeYear (d.Year + 1) := by
  obtain ⟨L, s, e, hL, hL1, hs, he, hc⟩ := month_facts d.Year d.Month hv.1 hv.2.1
  have h3 := hv.2.2.1
  have h4 := hv.2.2.2
  rw [dayNumber_valid d hv, daysBeforeYear_succ, hs, hL1]
  constructor <;> omega

theorem dayNumber_lt_of_month_lt (a b : Date) (hva : ValidDate a) (hvb : ValidDate b)
    (hy : a.Year = b.Year) (hm : a.Month < b.Month) : dayNumber a < dayNumber b := by
  obtain ⟨L, s, e, hL, hL1, hs, he, hc⟩ := month_facts a.Year a.Month hva.1 hva.2.1
  obtain ⟨L2, s2, e2, _, hL2, hs2, _, hc2⟩ := month_facts b.Year b.Month hvb.1 hvb.2.1
  have h3 := hva.2.2.2
  have h4 := hvb.2.2.1
  rw [hy] at hL1
  have hLL : L = L2 := by rw [← hL1, ← hL2]
  rw [dayNumber_valid a hva, dayNumber_valid b hvb, hs, hs2, hy]
  omega

/-- On calendar dates the day number is strictly monotone for the calendar order. -/
theorem dayNumber_lt_of_calBefore (a b : Date) (hva : ValidDate a) (hvb : ValidDate b)
    (h : CalBefore a b) : dayNumber a < dayNumber b := by
  rcases h with hy | ⟨hy, hm | ⟨hm, hd⟩⟩
  · have h1 := (dayNumber_bounds a hva).2
    have h2 := (dayNumber_bounds b hvb).1
    have h3 : daysBeforeYear (a.Year + 1) ≤ daysBeforeYear b.Year :=
      daysBeforeYear_mono (by omega)
    omega
  · exact dayNumber_lt_of_month_lt a b hva hvb hy hm
  · rw [dayNumber_valid a hva, dayNumber_valid b hvb, hy, hm]
    omega

theorem dayNumber_lt_iff (a b : Date) (hva : ValidDate a) (hvb : ValidDate b) :
    dayNumber a < dayNumber b ↔ CalBefore a b := by
  constructor
  · intro h
    by_contra hn
    have hcases : a = b ∨ CalBefore b a := by
      unfold CalBefore at hn ⊢
      by_cases he : a = b
      · exact Or.inl he
      · right
        have hne : a.Day ≠ b.Day ∨ a.Month ≠ b.Month ∨ a.Year ≠ b.Year := by
          by_contra hall
          apply he
          cases a; cases b
          simp only [Date.mk.injEq]
          simp only [ne_eq, not_or, not_not] at hall
          exact hall
        omega
    rcases hcases with he | hb
    · rw [he] at h; omega
    · have := dayNumber_lt_of_calBefore b a hvb hva hb
      omega
  · exact dayNumber_lt_of_calBefore a b hva hvb

/-- For a calendar date with its year in range the seconds count does not wrap. -/
theorem instant_eq (d : Date) (hv : ValidDate d) (hr : InTimeRange d) :
    instant d = 86400 * dayNumber d := by
  have hb := dayNumber_bounds d hv
  have h1 : daysBeforeYear (-292277022399) ≤ daysBeforeYear d.Year :=
    daysBeforeYear_mono hr.1
  have h2 : daysBeforeYear (d.Year + 1) ≤ daysBeforeYear (292277022399 + 1) :=
    daysBeforeYear_mono (by have := hr.2; omega)
  have h3 : daysBeforeYear (-292277022399) = -106751990353932 := by decide
  have h4 : daysBeforeYear (292277022399 + 1) = 106751990353566 := by decide
  unfold instant Go.wrap64
  omega

theorem instant_lt_iff (a b : Date) (hva : ValidDate a) (hvb : ValidDate b)
    (hra : InTimeRange a) (hrb : InTimeRange b) :
    instant a < instant b ↔ CalBefore a b := by
  rw [instant_eq a hva hra, instant_eq b hvb hrb, ← dayNumber_lt_iff a b hva hvb]
  omega

/-- C17, as stated, fails. First, for a `start` that is not a calendar date: 30.02.2001 is
read by `time.Date` as 02.03.2001, so 01.03.2001 is dropped although it follows `start` and
precedes `end` in (year, month, day) order. Second, for calendar dates with a year beyond the
range of package `time`: the seconds count of 01.01.300000000000 wraps around and the date
is dropped although it lies strictly between `start` and `end`. -/
theorem processDatesSingleThread_spec_counterexample :
    (ValidDate ⟨1, 3, 2001⟩ ∧ CalBefore ⟨30, 2, 2001⟩ ⟨1, 3, 2001⟩ ∧
      CalBefore ⟨1, 3, 2001⟩ ⟨1, 1, 2002⟩ ∧
      processDatesSingleThread [⟨1, 3, 2001⟩] ⟨30, 2, 2001⟩ ⟨1, 1, 2002⟩ = (0, [])) ∧
    (ValidDate ⟨1, 1, 300000000000⟩ ∧ ValidDate ⟨1, 1, 2001⟩ ∧
      ValidDate ⟨1, 1, 300000000001⟩ ∧
      CalBefore ⟨1, 1, 2001⟩ ⟨1, 1, 300000000000⟩ ∧
      CalBefore ⟨1, 1, 300000000000⟩ ⟨1, 1, 300000000001⟩ ∧
      processDatesSingleThread [⟨1, 1, 300000000000⟩] ⟨1, 1, 2001⟩ ⟨1, 1, 300000000001⟩
        = (0, [])) := by
  decide

/-- C17 (amended: `processDatesSingleThread`). The returned count is the length of the
returned slice and the slice is the sub-sequence of the input (in input order) of the dates
with `isDateInRange`; when the date, `start` and `end` are calendar dates with years in the
range of package `time`, `isDateInRange d start end` holds exactly when `start < d < end`
strictly in calendar order. -/
theorem processDatesSingleThread_spec (dates : List Date) (start endD : Date) :
    (processDatesSingleThread dates start endD).1
        = (processDatesSingleThread dates start endD).2.length ∧
      (processDatesSingleThread dates start endD).2
        = dates.filter (fun d => isDateInRange d start endD) ∧
      ∀ d, ValidDate d → ValidDate start → ValidDate endD →
        InTimeRange d → InTimeRange start → InTimeRange endD →
        (isDateInRange d start endD = true ↔ CalBefore start d ∧ CalBefore d endD) := by
  refine ⟨?_, ?_, ?_⟩
  · simp [processDatesSingleThread, singleLoop_eq]
  · simp [processDatesSingleThread, singleLoop_eq]
  · intro d hd hs he hrd hrs hre
    simp only [isDateInRange, Bool.and_eq_true, decide_eq_true_eq,
      instant_lt_iff start d hs hd hrs hrd, instant_lt_iff d endD hd he hrd hre]

/-- Witness of the amended C17 with the range of `main` (11.09.2001 to 12.04.2005): the date
equal to `start` and the one after `end` are dropped, the order of the others is kept. -/
theorem processDatesSingleThread_spec_witness :
    processDatesSingleThread
        [⟨29, 2, 2004⟩, ⟨11, 9, 2001⟩, ⟨12, 9, 2001⟩, ⟨13, 4, 2005⟩, ⟨11, 4, 2005⟩]
        ⟨11, 9, 2001⟩ ⟨12, 4, 2005⟩
      = (3, [⟨29, 2, 2004⟩, ⟨12, 9, 2001⟩, ⟨11, 4, 2005⟩]) ∧
    (isDateInRange ⟨11, 9, 2001⟩ ⟨11, 9, 2001⟩ ⟨12, 4, 2005⟩ = true
      ↔ CalBefore ⟨11, 9, 2001⟩ ⟨11, 9, 2001⟩ ∧ CalBefore ⟨11, 9, 2001⟩ ⟨12, 4, 2005⟩) :=
  ⟨by decide,
    (processDatesSingleThread_spec
      [⟨29, 2, 2004⟩, ⟨11, 9, 2001⟩, ⟨12, 9, 2001⟩, ⟨13, 4, 2005⟩, ⟨11, 4, 2005⟩]
      ⟨11, 9, 2001⟩ ⟨12, 4, 2005⟩).2.2 ⟨11, 9, 2001⟩
      (by decide) (by decide) (by decide) (by decide) (by decide) (by decide)⟩

/-! ## The chunks of the multi-threaded filter -/

theorem chunksFrom_range (dates : List Date) (n c : Nat) (hc : n * c ≤ dates.length) :
    ∀ (m i : Nat), i + m = n →
      ∃ cs, chunksFrom dates n c (List.range' i m) = some cs ∧ cs.length = m ∧
        cs.flatten = if m = 0 then [] else dates.drop (i * c) := by
  intro m
  induction m with
  | zero => intro i _; exact ⟨[], rfl, rfl, rfl⟩
  | succ m ih =>
    intro i him
    obtain ⟨cs, hcs, hlen, hflat⟩ := ih (i + 1) (by omega)
    have hsucc : (i + 1) * c = i * c + c := Nat.succ_mul i c
    have hle : (i + 1) * c ≤ n * c := Nat.mul_le_mul_right c (by omega)
    simp only [List.range', chunksFrom, hcs]
    by_cases hm : m = 0
    · have hi : i = n - 1 := by omega
      have hb : i * c ≤ dates.length ∧ dates.length ≤ dates.length := ⟨by omega, Nat.le_refl _⟩
      simp only [hi, if_true] at hb ⊢
      rw [if_pos hb]
      refine ⟨_, rfl, by simp [hlen], ?_⟩
      rw [hm] at hflat
      simp only [if_true] at hflat
      simp only [List.flatten_cons, hflat, List.append_nil, Nat.succ_ne_zero, if_false]
      apply List.take_of_length_le
      simp
    · have hi : ¬ i = n - 1 := by omega
      have hb : i * c ≤ (i + 1) * c ∧ (i + 1) * c ≤ dates.length := ⟨by omega, by omega⟩
      simp only [hi, if_false]
      rw [if_pos hb]
      refine ⟨_, rfl, by simp [hlen], ?_⟩
      rw [if_neg hm] at hflat
      have hsub : (i + 1) * c - i * c = c := by omega
      simp only [List.flatten_cons, hflat, hsub, Nat.succ_ne_zero, if_false]
      rw [hsucc, ← List.drop_drop]
      exact List.take_append_drop c (List.drop (i * c) dates)

theorem chunks_partition (dates : List Date) (numThreads : Int) (hn : 1 ≤ numThreads) :
    ∃ cs, chunks dates numThreads = some cs ∧ cs.length = numThreads.toNat ∧
      cs.flatten = dates := by
  have h0 : ¬ numThreads = 0 := by omega
  have hpos : numThreads.toNat ≠ 0 := by omega
  obtain ⟨cs, hcs, hlen, hflat⟩ :=
    chunksFrom_range dates numThreads.toNat (dates.length / numThreads.toNat)
      (Nat.mul_div_le _ _) numThreads.toNat 0 (by omega)
  refine ⟨cs, ?_, hlen, ?_⟩
  · simp only [chunks, h0, if_false, List.range_eq_range']
    exact hcs
  · rw [hflat, if_neg hpos]
    simp

/-- C18 (`processDatesMultiThread`). For every list of dates and `numThreads >= 1`, also
above `len(dates)`: the slice bounds of all `numThreads` chunks are in range, the chunks
concatenate to the whole list, the result of `processDatesSingleThread` is one possible
return, and every possible return has the count of `processDatesSingleThread`. -/
theorem processDatesMultiThread_partition (dates : List Date) (start endD : Date)
    (numThreads : Int) (hn : 1 ≤ numThreads) :
    ∃ cs, chunks dates numThreads = some cs ∧ cs.length = numThreads.toNat ∧
      cs.flatten = dates ∧
      MultiThreadReturns dates start endD numThreads
        (processDatesSingleThread dates start endD).1
        (processDatesSingleThread dates start endD).2 ∧
      ∀ count result, MultiThreadReturns dates start endD numThreads count result →
        count = (processDatesSingleThread dates start endD).1 := by
  obtain ⟨cs, hcs, hlen, hflat⟩ := chunks_partition dates numThreads hn
  have hjoin : (cs.map (worker start endD)).flatten
      = dates.filter (fun d => isDateInRange d start endD) := by
    have h := List.filter_flatten (fun d => isDateInRange d start endD) cs
    rw [hflat] at h
    rw [h]
    rfl
  have hsingle : processDatesSingleThread dates start endD
      = ((dates.filter (fun d => isDateInRange d start endD)).length,
          dates.filter (fun d => isDateInRange d start endD)) := by
    simp [processDatesSingleThread, singleLoop_eq]
  refine ⟨cs, hcs, hlen, hflat, ?_, ?_⟩
  · simp only [MultiThreadReturns, hcs, hjoin, hsingle]
    exact ⟨List.Perm.refl _, trivial⟩
  · intro count result h
    simp only [MultiThreadReturns, hcs, hjoin] at h
    rw [hsingle, h.2, h.1.length_eq]

/-- Witness of C18: two dates on four goroutines. -/
theorem processDatesMultiThread_partition_witness :
    ∃ cs, chunks [⟨29, 2, 2004⟩, ⟨11, 9, 2001⟩] 4 = some cs ∧ cs.length = (4 : Int).toNat ∧
      cs.flatten = [⟨29, 2, 2004⟩, ⟨11, 9, 2001⟩] ∧
      MultiThreadReturns [⟨29, 2, 2004⟩, ⟨11, 9, 2001⟩] ⟨11, 9, 2001⟩ ⟨12, 4, 2005⟩ 4
        (processDatesSingleThread [⟨29, 2, 2004⟩, ⟨11, 9, 2001⟩] ⟨11, 9, 2001⟩
          ⟨12, 4, 2005⟩).1
        (processDatesSingleThread [⟨29, 2, 2004⟩, ⟨11, 9, 2001⟩] ⟨11, 9, 2001⟩
          ⟨12, 4, 2005⟩).2 ∧
      ∀ count result,
        MultiThreadReturns [⟨29, 2, 2004⟩, ⟨11, 9, 2001⟩] ⟨11, 9, 2001⟩ ⟨12, 4, 2005⟩ 4
          count result →
        count = (processDatesSingleThread [⟨29, 2, 2004⟩, ⟨11, 9, 2001⟩] ⟨11, 9, 2001⟩
          ⟨12, 4, 2005⟩).1 :=
  processDatesMultiThread_partition [⟨29, 2, 2004⟩, ⟨11, 9, 2001⟩] ⟨11, 9, 2001⟩
    ⟨12, 4, 2005⟩ 4 (by decide)

end Task2
